import Mathlib

/-!
Verification development for the Dijkstar repository (graph data structure
with a dual forward/incoming adjacency index, and the generalized
Dijkstra/A* search engine).

The Python code is shallowly embedded: Python dicts over hashable node keys
become association lists with unique keys (`dget`/`dset`/`ddel` mirror
`d[k]`, `d[k] = v`, `del d[k]`), nodes are `Nat`, edge labels and costs are
`Int`, fallible operations return explicit result types that also carry the
mutated state at the time a `KeyError` escapes (Python exceptions leave
prior in-place mutations visible), and the unbounded `while` loops take a
fuel argument.
-/

/-- Association-list lookup, mirroring Python `d[k]` / `k in d`. -/
def dget {α : Type} (d : List (Nat × α)) (k : Nat) : Option α :=
  match d with
  | [] => none
  | p :: t => if p.1 = k then some p.2 else dget t k

/-- Key-membership test, mirroring Python `k in d`. -/
def dhas {α : Type} (d : List (Nat × α)) (k : Nat) : Bool :=
  (dget d k).isSome

/-- Association-list update, mirroring Python `d[k] = v`: an existing key
keeps its position and gets the new value; a new key is appended at the
end, as Python dicts preserve insertion order. -/
def dset {α : Type} (d : List (Nat × α)) (k : Nat) (v : α) : List (Nat × α) :=
  match d with
  | [] => [(k, v)]
  | p :: t => if p.1 = k then (p.1, v) :: t else p :: dset t k v

/-- Association-list deletion of a key, mirroring Python `del d[k]` on a
present key (call sites check presence first, as `del` raises `KeyError`
otherwise). -/
def ddel {α : Type} (d : List (Nat × α)) (k : Nat) : List (Nat × α) :=
  match d with
  | [] => []
  | p :: t => if p.1 = k then ddel t k else p :: ddel t k

/-! ## The Graph type (dijkstar/graph.py)

`Graph` keeps the outgoing adjacency `_data`, the mirrored incoming index
`_incoming` (a `defaultdict(dict)` in the source) and the `undirected`
flag. Node keys are `Nat`, edge labels are `Int`. -/

abbrev Row := List (Nat × Int)

abbrev Dict2 := List (Nat × Row)

/-- Edge lookup in a two-level dict: `d[u][v]`, `none` when either level
misses. -/
def dget2 (d : Dict2) (u v : Nat) : Option Int :=
  (dget d u).bind (fun row => dget row v)

structure Graph where
  data : Dict2
  incoming : Dict2
  undirected : Bool
deriving DecidableEq

/-- Result of a mutating Python method: either a normal return or an
escaping `KeyError`; both carry the object state afterwards, because
in-place mutations performed before the raise stay visible. -/
inductive PyRes (α : Type) where
  | ok : α → PyRes α
  | keyError : α → PyRes α
deriving DecidableEq

/-- `Graph.add_edge(u, v, edge)` of graph.py. -/
def add_edge (g : Graph) (u v : Nat) (e : Int) : Graph :=
  let data :=
    match dget g.data u with
    | some neighbors => dset g.data u (dset neighbors v e)
    | none => dset g.data u [(v, e)]
  let incoming := dset g.incoming v (dset ((dget g.incoming v).getD []) u e)
  if g.undirected then
    let data2 :=
      match dget data v with
      | some neighbors => dset data v (dset neighbors u e)
      | none => dset data v [(u, e)]
    let incoming2 := dset incoming u (dset ((dget incoming u).getD []) v e)
    { g with data := data2, incoming := incoming2 }
  else
    { g with data := data, incoming := incoming }

/-- One iteration of the `for v, e in neighbors.items()` loop in
`Graph.add_node`: `node_data[v] = e` (aliasing `data[u]`),
`incoming[v][u] = e`, and the undirected mirror updates. -/
def add_node_step (undirected : Bool) (u : Nat) (st : Dict2 × Dict2)
    (ve : Nat × Int) : Dict2 × Dict2 :=
  let v := ve.1
  let e := ve.2
  let data := dset st.1 u (dset ((dget st.1 u).getD []) v e)
  let incoming := dset st.2 v (dset ((dget st.2 v).getD []) u e)
  if undirected then
    let data2 :=
      match dget data v with
      | none => dset data v [(u, e)]
      | some row => dset data v (dset row u e)
    let incoming2 := dset incoming u (dset ((dget incoming u).getD []) v e)
    (data2, incoming2)
  else
    (data, incoming)

/-- `Graph.add_node(u, neighbors)` of graph.py (`neighbors = {}` stands for
the `None` default). On a directed graph, or when `u` is new, `data[u]` is
reset to `{}` before the neighbors are merged in. -/
def add_node (g : Graph) (u : Nat) (neighbors : Row) : Graph :=
  let directed := !g.undirected
  let data0 := if directed || !(dhas g.data u) then dset g.data u [] else g.data
  let res := neighbors.foldl (add_node_step g.undirected u) (data0, g.incoming)
  { g with data := res.1, incoming := res.2 }

/-- `Graph(data, undirected=...)`: `__init__` runs `self.update(data)`,
which calls `__setitem__` and hence `add_node` for every item. -/
def graphInit (data : Dict2) (undirected : Bool) : Graph :=
  data.foldl (fun g p => add_node g p.1 p.2) ⟨[], [], undirected⟩

/-- `Graph.get_node(u)`; `none` models the `KeyError`. -/
def get_node (g : Graph) (u : Nat) : Option Row :=
  dget g.data u

/-- `Graph.get_edge(u, v)`; `none` models the `KeyError`. -/
def get_edge (g : Graph) (u v : Nat) : Option Int :=
  dget2 g.data u v

/-- `Graph.remove_edge(u, v)` of graph.py, step by step:
`del data[u][v]`, `del incoming[v][u]` (the incoming index is a
`defaultdict`, so `incoming[v]` is materialized before the inner `del`
can raise), the emptiness cleanup, then the unconditional
`if u in data[v]` reverse-arc branch — `data` is a plain dict, so this
lookup raises `KeyError` when `v` has no adjacency entry. -/
def remove_edge (g : Graph) (u v : Nat) : PyRes Graph :=
  match dget g.data u with
  | none => .keyError g
  | some rowU =>
    match dget rowU v with
    | none => .keyError g
    | some _ =>
      let data := dset g.data u (ddel rowU v)
      let rowIV := (dget g.incoming v).getD []
      let incoming := dset g.incoming v rowIV
      match dget rowIV u with
      | none => .keyError { g with data := data, incoming := incoming }
      | some _ =>
        let incoming := dset incoming v (ddel rowIV u)
        let incoming := if (ddel rowIV u).isEmpty then ddel incoming v else incoming
        match dget data v with
        | none => .keyError { g with data := data, incoming := incoming }
        | some rowV =>
          match dget rowV u with
          | none => .ok { g with data := data, incoming := incoming }
          | some _ =>
            let data2 := dset data v (ddel rowV u)
            let rowIU := (dget incoming u).getD []
            let incoming2 := dset incoming u rowIU
            match dget rowIU v with
            | none => .keyError { g with data := data2, incoming := incoming2 }
            | some _ =>
              let incoming3 := dset incoming2 u (ddel rowIU v)
              let incoming3 := if (ddel rowIU v).isEmpty then ddel incoming3 u else incoming3
              .ok { g with data := data2, incoming := incoming3 }

/-- First loop of `Graph.remove_node`: `for v in incoming[u]: del data[v][u]`. -/
def remove_node_loop1 (u : Nat) (inc : Row) (data : Dict2) : PyRes Dict2 :=
  match inc with
  | [] => .ok data
  | (v, _) :: rest =>
    match dget data v with
    | none => .keyError data
    | some row =>
      match dget row u with
      | none => .keyError data
      | some _ => remove_node_loop1 u rest (dset data v (ddel row u))

/-- Second loop of `Graph.remove_node`:
`for v in neighbors: del incoming[v][u]; if not incoming[v]: del incoming[v]`. -/
def remove_node_loop2 (u : Nat) (ns : Row) (incoming : Dict2) : PyRes Dict2 :=
  match ns with
  | [] => .ok incoming
  | (v, _) :: rest =>
    let rowIV := (dget incoming v).getD []
    let incoming1 := dset incoming v rowIV
    match dget rowIV u with
    | none => .keyError incoming1
    | some _ =>
      let incoming2 := dset incoming1 v (ddel rowIV u)
      let incoming2 := if (ddel rowIV u).isEmpty then ddel incoming2 v else incoming2
      remove_node_loop2 u rest incoming2

/-- `Graph.remove_node(u)` of graph.py. `neighbors` aliases `data[u]`, so
the second loop iterates the row as left by the first loop. The trailing
`del incoming[u]` operates on the entry materialized by the defaultdict
access in the first loop header. -/
def remove_node (g : Graph) (u : Nat) : PyRes Graph :=
  match dget g.data u with
  | none => .keyError g
  | some _ =>
    let incomingU := (dget g.incoming u).getD []
    let incoming0 := dset g.incoming u incomingU
    match remove_node_loop1 u incomingU g.data with
    | .keyError data => .keyError { g with data := data, incoming := incoming0 }
    | .ok data1 =>
      let neighbors := (dget data1 u).getD []
      match remove_node_loop2 u neighbors incoming0 with
      | .keyError incoming => .keyError { g with data := data1, incoming := incoming }
      | .ok incoming2 =>
        match dget incoming2 u with
        | none => .keyError { g with data := ddel data1 u, incoming := incoming2 }
        | some _ => .ok { g with data := ddel data1 u, incoming := ddel incoming2 u }

/-- The inner `for v, edge in neighbors.items(): subgraph.add_edge(u, v, edge)`
loop of `Graph.subgraph` (`copy` on nodes/edge labels is the identity for
our value types). -/
def addRow (sub : Graph) (u : Nat) (row : Row) : Graph :=
  row.foldl (fun s ve => add_edge s u ve.1 ve.2) sub

/-- First loop of `Graph.subgraph`: replay every selected node's full
neighbor row into a fresh (directed) graph. -/
def subgraph_loop1 (g : Graph) (nodes : List Nat) (sub : Graph) : PyRes Graph :=
  match nodes with
  | [] => .ok sub
  | u :: rest =>
    match dget g.data u with
    | none => .keyError sub
    | some row => subgraph_loop1 g rest (addRow sub u row)

/-- `for v in nodes: if v in neighbors: del neighbors[v]` — the disconnect
pass mutates the subgraph row in place (its incoming index is not
updated). -/
def delNodes (row : Row) (nodes : List Nat) : Row :=
  nodes.foldl (fun r v => if dhas r v then ddel r v else r) row

/-- Second (disconnect) loop of `Graph.subgraph`; `subgraph[u]` raises
`KeyError` when `u` got no row during the first loop. -/
def subgraph_loop2 (nodes : List Nat) (todo : List Nat) (sub : Graph) : PyRes Graph :=
  match todo with
  | [] => .ok sub
  | u :: rest =>
    match dget sub.data u with
    | none => .keyError sub
    | some row =>
      subgraph_loop2 nodes rest { sub with data := dset sub.data u (delNodes row nodes) }

/-- `Graph.subgraph(nodes, disconnect)` of graph.py. The fresh subgraph is
built with `self.__class__()`, i.e. with default flags: it is directed. -/
def subgraph (g : Graph) (nodes : List Nat) (disconnect : Bool) : PyRes Graph :=
  match subgraph_loop1 g nodes ⟨[], [], false⟩ with
  | .keyError s => .keyError s
  | .ok sub =>
    if disconnect then subgraph_loop2 nodes nodes sub
    else .ok sub

/-- `Graph.edge_count`: sums the raw adjacency entries and halves them in
undirected mode; `none` models the failing `assert count % 2 == 0`. -/
def edge_count (g : Graph) : Option Nat :=
  let count := (g.data.map (fun p => p.2.length)).sum
  if g.undirected then
    if count % 2 = 0 then some (count / 2) else none
  else some count

/-- `Graph.node_count`. -/
def node_count (g : Graph) : Nat :=
  g.data.length

/-! ## Dual-index invariant (spec, data model section)

For every stored arc `(u, v, e)` the incoming index must hold
`incoming[v][u] == e`, and the incoming index must hold nothing else. -/

def DualIndexInv (g : Graph) : Prop :=
  (∀ u v e, dget2 g.data u v = some e → dget2 g.incoming v u = some e) ∧
  (∀ v u e, dget2 g.incoming v u = some e → dget2 g.data u v = some e)

/-- Executable check of `DualIndexInv` (it scans every stored entry). -/
def dualIndexCheck (g : Graph) : Bool :=
  (g.data.all fun p => p.2.all fun q => dget2 g.incoming q.1 p.1 == some q.2) &&
  (g.incoming.all fun p => p.2.all fun q => dget2 g.data q.1 p.1 == some q.2)

/-! ## Serialization (graph.py: `_read`, `load`, `unmarshal`, `guess_load`)

File contents are abstracted to the encoding they carry. Only the
outgoing-adjacency mapping is ever persisted (`_write` writes
`self._data`); reading rebuilds a `Graph` via `cls(data)`, i.e. through
`graphInit`. A `from_` argument is either a path string (carrying the
extension `os.path.splitext` would find) or an open file object. -/

inductive Content where
  | pickled : Dict2 → Content
  | marshalled : Dict2 → Content
  | garbage : Content
deriving DecidableEq

inductive Source where
  | path : String → Content → Source
  | file : Content → Source
deriving DecidableEq

def contentOf : Source → Content
  | .path _ c => c
  | .file c => c

inductive LoadErr where
  | unpicklingError
  | marshalError
  | attributeError
  | valueError
deriving DecidableEq

/-- `pickle.load`: succeeds exactly on pickle-encoded content, raising
`pickle.UnpicklingError` otherwise. -/
def pickle_load : Content → Except LoadErr Dict2
  | .pickled d => .ok d
  | _ => .error .unpicklingError

/-- `marshal.load`: succeeds exactly on marshal-encoded content; its
failures (`EOFError`/`ValueError`/`TypeError`) are folded into one
constructor. -/
def marshal_load : Content → Except LoadErr Dict2
  | .marshalled d => .ok d
  | _ => .error .marshalError

/-- `Graph._read(reader, from_)`: path and open file both end up reading
the same content, then `cls(data)` builds the graph (with default flags,
hence directed). -/
def graph_read (reader : Content → Except LoadErr Dict2) (src : Source) :
    Except LoadErr Graph :=
  match reader (contentOf src) with
  | .ok data => .ok (graphInit data false)
  | .error err => .error err

/-- `Graph.load`. -/
def load (src : Source) : Except LoadErr Graph :=
  graph_read pickle_load src

/-- `Graph.unmarshal`. -/
def unmarshal (src : Source) : Except LoadErr Graph :=
  graph_read marshal_load src

/-- `ext.lstrip('.')`. -/
def lstripDot (s : String) : String :=
  ⟨s.data.dropWhile (fun c => c = '.')⟩

/-- `Graph.guess_load(from_, ext=None)` of graph.py. The empty string
stands for the falsy `None`/`''` extension argument. In the fallback
branch, after `Graph.load` raises `pickle.UnpicklingError`, the code calls
`from_.seek(0)`, which raises `AttributeError` when `from_` is a path
string; only for open files does it reach `marshal.load`, and when that
also fails it raises the final `ValueError`. -/
def guessExt (src : Source) (extArg : String) : String :=
  let ext :=
    if extArg = "" then
      match src with
      | .path pext _ => pext
      | .file _ => ""
    else extArg
  if ext ≠ "" then lstripDot ext else ext

def guess_load (src : Source) (extArg : String) : Except LoadErr Graph :=
  if guessExt src extArg = "pickle" then load src
  else if guessExt src extArg = "marshal" then unmarshal src
  else
    match load src with
    | .ok g => .ok g
    | .error _ =>
      match src with
      | .path _ _ => .error .attributeError
      | .file c =>
        match marshal_load c with
        | .ok data => .ok (graphInit data false)
        | .error _ => .error .valueError

/-! ## The search engine (dijkstar/algorithm.py)

`single_source_shortest_paths` operates on raw adjacency dicts (it calls
`get_data()` up front), so the embedding takes the dicts. Cost and
heuristic functions receive `(u, v, edge, prev_edge)`; `prev_edge` is
`none` at the start node. The `while visit_queue:` loop takes fuel (the
Python loop provably terminates, so fuel exhaustion is a modelling
artifact, kept distinct from every real outcome). -/

abbrev CostFn := Nat → Nat → Int → Option Int → Int

abbrev PredEntry := Option (Nat × Int × Int)

abbrev PredMap := List (Nat × PredEntry)

abbrev CostMap := List (Nat × Int)

abbrev Trip := Int × Nat × Nat

/-- `cost_func(u, v, e, prev_e) if cost_func else e`. -/
def computeCost (cF : Option CostFn) (u v : Nat) (e : Int) (prevE : Option Int) : Int :=
  match cF with
  | some f => f u v e prevE
  | none => e

/-- `v not in costs or costs[v] > cost_of_s_to_u_plus_cost_of_e`. -/
def improves (costs : CostMap) (v : Nat) (total : Int) : Bool :=
  match dget costs v with
  | none => true
  | some c => total < c

/-- Neighbor-set selection: `annex[u]` when `annex` is truthy and `u in
annex` (an empty annex dict is falsy, and then cannot contain `u`), else
`graph[u] if u in graph else None`. -/
def selectNeighbors (graph annex : Dict2) (u : Nat) : Option Row :=
  match dget annex u with
  | some ns => some ns
  | none => dget graph u

/-- `predecessors[u][1]`, the edge over which `u` itself was reached. -/
def entryEdge : PredEntry → Option Int
  | none => none
  | some p => some p.2.1

structure SsspState where
  counter : Nat
  costs : CostMap
  predecessors : PredMap
  queue : List Trip
  visited : List Nat
  graph : Dict2
  annex : Dict2
deriving DecidableEq

/-- `cost_of_s_to_u_plus_cost_of_e`, after the heuristic term has been
added when a heuristic is supplied: this single value is compared against
`costs[v]`, stored into `costs[v]` and pushed as the queue key. -/
def relaxTotal (cF hF : Option CostFn) (u v : Nat) (e : Int) (costU : Int)
    (prevE : Option Int) : Int :=
  match hF with
  | some h => costU + computeCost cF u v e prevE + h u v e prevE
  | none => costU + computeCost cF u v e prevE

/-- One iteration of the `for v in neighbors:` relaxation loop. -/
def relaxOne (cF hF : Option CostFn) (u : Nat) (costU : Int) (prevE : Option Int)
    (st : SsspState) (ve : Nat × Int) : SsspState :=
  if ve.1 ∈ st.visited then st
  else if improves st.costs ve.1 (relaxTotal cF hF u ve.1 ve.2 costU prevE) then
    { st with
      costs := dset st.costs ve.1 (relaxTotal cF hF u ve.1 ve.2 costU prevE),
      predecessors := dset st.predecessors ve.1 (some (u, ve.2, computeCost cF u ve.1 ve.2 prevE)),
      queue := st.queue ++ [(relaxTotal cF hF u ve.1 ve.2 costU prevE, st.counter, ve.1)],
      counter := st.counter + 1 }
  else st

/-- Lexicographic comparison of `(cost, insertion counter, node)` triples,
the order `heapq` uses on the queue entries. -/
def tripLe (a b : Trip) : Bool :=
  if a.1 < b.1 then true
  else if b.1 < a.1 then false
  else if a.2.1 < b.2.1 then true
  else if b.2.1 < a.2.1 then false
  else decide (a.2.2 ≤ b.2.2)

def qmin (t : Trip) (q : List Trip) : Trip :=
  q.foldl (fun a b => if tripLe a b then a else b) t

/-- `heappop`: returns the least entry and the queue without it. -/
def popMin (q : List Trip) : Option (Trip × List Trip) :=
  match q with
  | [] => none
  | t :: rest =>
    let m := qmin t rest
    some (m, q.erase m)

inductive RunRes where
  | out : SsspState → RunRes
  | fuelOut : RunRes
  | keyErr : RunRes
deriving DecidableEq

/-- The `while visit_queue:` loop of `single_source_shortest_paths`. -/
def ssspLoop (cF hF : Option CostFn) (d : Option Nat) :
    Nat → SsspState → RunRes
  | 0, _ => .fuelOut
  | fuel + 1, st =>
    match popMin st.queue with
    | none => .out st
    | some (t, rest) =>
      if some t.2.2 = d then .out { st with queue := rest }
      else if t.2.2 ∈ st.visited then ssspLoop cF hF d fuel { st with queue := rest }
      else
        let u := t.2.2
        let st1 := { st with queue := rest, visited := st.visited ++ [u] }
        match selectNeighbors st1.graph st1.annex u with
        | none => ssspLoop cF hF d fuel st1
        | some ns =>
          if ns.isEmpty then ssspLoop cF hF d fuel st1
          else
            match dget st1.predecessors u with
            | none => .keyErr
            | some entry =>
              ssspLoop cF hF d fuel
                (ns.foldl (relaxOne cF hF u t.1 (entryEdge entry)) st1)

/-- Search state right before the loop: `costs = {s: 0}`,
`predecessors = {s: (None, None, None)}`, queue `[(0, 0, s)]` (counter `0`
consumed), nothing visited. -/
def initState (graph annex : Dict2) (s : Nat) : SsspState :=
  { counter := 1
    costs := [(s, 0)]
    predecessors := [(s, none)]
    queue := [(0, 0, s)]
    visited := []
    graph := graph
    annex := annex }

inductive SsspOut where
  | ok : SsspState → SsspOut
  | noPath : SsspOut
  | keyErr : SsspOut
  | fuelOut : SsspOut
deriving DecidableEq

/-- `single_source_shortest_paths(graph, s, d, annex, cost_func,
heuristic_func)`: run the loop, then `if d is not None and d not in costs:
raise NoPathError`. -/
def single_source_shortest_paths (graph annex : Dict2) (s : Nat) (d : Option Nat)
    (cF hF : Option CostFn) (fuel : Nat) : SsspOut :=
  match ssspLoop cF hF d fuel (initState graph annex s) with
  | .out st =>
    match d with
    | some dd => if (dget st.costs dd).isSome then .ok st else .noPath
    | none => .ok st
  | .fuelOut => .fuelOut
  | .keyErr => .keyErr

structure PathInfo where
  nodes : List Nat
  edges : List Int
  costs : List Int
  total_cost : Int
deriving DecidableEq

/-- The `while u is not None:` walk of
`extract_shortest_path_from_predecessor_list`, with the accumulators in
append order (they are reversed on exit, as in the source). The fuel bound
is a modelling artifact; the walk is proven to finish within
`predecessors` size on every state the search can produce. -/
def extractWalk (preds : PredMap) : Nat → PredEntry → List Nat → List Int → List Int →
    Option (List Nat × List Int × List Int)
  | _, none, nodes, edges, costs => some (nodes.reverse, edges.reverse, costs.reverse)
  | 0, some _, _, _, _ => none
  | fuel + 1, some p, nodes, edges, costs =>
    match dget preds p.1 with
    | none => none
    | some nextEntry =>
      extractWalk preds fuel nextEntry (nodes ++ [p.1]) (edges ++ [p.2.1]) (costs ++ [p.2.2])

/-- `extract_shortest_path_from_predecessor_list(predecessors, d)`;
`none` models a `KeyError` (or a walk that would not terminate). -/
def extract_shortest_path_from_predecessor_list (preds : PredMap) (d : Nat)
    (fuel : Nat) : Option PathInfo :=
  match dget preds d with
  | none => none
  | some entry =>
    match extractWalk preds fuel entry [d] [] [] with
    | some (ns, es, cs) => some ⟨ns, es, cs, cs.sum⟩
    | none => none

inductive FPOut where
  | ok : PathInfo → FPOut
  | noPath : FPOut
  | err : FPOut
deriving DecidableEq

/-- `find_path(graph, s, d, annex, cost_func, heuristic_func)`. -/
def find_path (graph annex : Dict2) (s d : Nat) (cF hF : Option CostFn)
    (fuel : Nat) : FPOut :=
  match single_source_shortest_paths graph annex s (some d) cF hF fuel with
  | .ok st =>
    match extract_shortest_path_from_predecessor_list st.predecessors d
        (st.predecessors.length + 1) with
    | some p => .ok p
    | none => .err
  | .noPath => .noPath
  | _ => .err

/-- Projection helpers used to state claims without binding intermediate
states. -/
def RunRes.isOut : RunRes → Bool
  | .out _ => true
  | _ => false

def RunRes.state : RunRes → SsspState
  | .out st => st
  | _ => ⟨0, [], [], [], [], [], []⟩

def SsspOut.isOk : SsspOut → Bool
  | .ok _ => true
  | _ => false

def SsspOut.state : SsspOut → SsspState
  | .ok st => st
  | _ => ⟨0, [], [], [], [], [], []⟩

/-- Every adjacency row of a Python dict has duplicate-free keys; the
association-list embedding states this explicitly. -/
abbrev RowsWF (d : Dict2) : Prop :=
  ∀ p ∈ d, (p.2.map Prod.fst).Nodup

/-! ## Statement-level predicates and helpers

These formalize the claims; they are not part of the embedded program. -/

/-- Index of the first occurrence of `x` in `l` (`l.length` when absent):
the visit rank of a node in the visited-order list. -/
def idxIn (l : List Nat) (x : Nat) : Nat :=
  match l with
  | [] => 0
  | y :: t => if y = x then 0 else idxIn t x + 1

/-- The edge recorded on `u`'s own predecessor entry, `none` when `u` is
the start node or unreached. -/
def prevEdgeOf (preds : PredMap) (u : Nat) : Option Int :=
  match dget preds u with
  | some en => entryEdge en
  | none => none

/-- The edge label the search would traverse from `u` to `v`, taking the
annex override into account. -/
def arcLookup (graph annex : Dict2) (u v : Nat) : Option Int :=
  (selectNeighbors graph annex u).bind (fun ns => dget ns v)

/-- `pathSteps graph annex cF pe u ns es cs`: starting at `u`, whose
incoming edge was `pe`, the node/edge/cost triples walk existing arcs and
record exactly the computed cost of each arc. -/
def pathSteps (graph annex : Dict2) (cF : Option CostFn) :
    Option Int → Nat → List Nat → List Int → List Int → Prop
  | _, _, [], [], [] => True
  | pe, u, v :: ns, e :: es, c :: cs =>
    arcLookup graph annex u v = some e ∧ c = computeCost cF u v e pe ∧
      pathSteps graph annex cF (some e) v ns es cs
  | _, _, _, _, _ => False

/-- A backwards-predecessor chain: `PChain preds v ns es cs` holds when
following predecessor entries from `v` reaches a start entry, and the
forward-ordered accumulated nodes/edges/costs are `ns`/`es`/`cs`
(`ns` ends with `v`). -/
inductive PChain (preds : PredMap) : Nat → List Nat → List Int → List Int → Prop where
  | start : ∀ v, dget preds v = some none → PChain preds v [v] [] []
  | step : ∀ v u e c ns es cs, dget preds v = some (some (u, e, c)) →
      PChain preds u ns es cs → PChain preds v (ns ++ [v]) (es ++ [e]) (cs ++ [c])

/-- Loop invariant of the search. `startOk` says either the start has been
visited (always true from the second iteration on) or the state is still
pre-first-pop. `predShape` is the key structural clause: every predecessor
entry records an arc the search can traverse, its heuristic-free computed
cost, and a strictly smaller visit rank, which roots every predecessor
chain at `s`. -/
structure SearchInv (s : Nat) (cF : Option CostFn) (st : SsspState) : Prop where
  rowsG : RowsWF st.graph
  rowsA : RowsWF st.annex
  visNodup : st.visited.Nodup
  predKeysNodup : (st.predecessors.map Prod.fst).Nodup
  startOk : s ∈ st.visited ∨
    (st.visited = [] ∧ st.predecessors = [(s, none)] ∧ st.costs = [(s, 0)] ∧
      ∀ t ∈ st.queue, t.2.2 = s)
  predS : dget st.predecessors s = some none
  costS : dget st.costs s = some 0
  sync : ∀ v, (dget st.costs v).isSome ↔ (dget st.predecessors v).isSome
  noneIsStart : ∀ v, dget st.predecessors v = some none → v = s
  queueReached : ∀ t ∈ st.queue, (dget st.predecessors t.2.2).isSome
  visReached : ∀ u ∈ st.visited, (dget st.predecessors u).isSome
  predShape : ∀ v u e c, dget st.predecessors v = some (some (u, e, c)) →
    u ∈ st.visited ∧
    (v ∈ st.visited → idxIn st.visited u < idxIn st.visited v) ∧
    arcLookup st.graph st.annex u v = some e ∧
    c = computeCost cF u v e (prevEdgeOf st.predecessors u)

/-- Last traversed edge after extending a walk whose incoming edge was
`pe` with the edges `es`. -/
def lastEdge (pe : Option Int) (es : List Int) : Option Int :=
  match es.getLast? with
  | some x => some x
  | none => pe

def PyRes.isErr {α : Type} : PyRes α → Bool
  | .keyError _ => true
  | .ok _ => false

/-- The object state after a mutating call, whether or not it raised. -/
def PyRes.state {α : Type} : PyRes α → α
  | .ok a => a
  | .keyError a => a

/-- Unwrap a load result (the default is marked undirected so that the
directedness theorems about loaded graphs are not vacuous on it). -/
def loadedGraph : Except LoadErr Graph → Graph
  | .ok g => g
  | .error _ => ⟨[], [], true⟩

/-! ## Concrete inputs used by witnesses and counterexamples -/

/-- Directed graph `{1: {2: 10}}` with its incoming index, built by
`add_edge(1, 2, 10)`. -/
def exG1 : Graph := add_edge ⟨[], [], false⟩ 1 2 10

/-- `exG1` after `add_node(1, {3: 20})` (directed replace). -/
def exG2 : Graph := add_node exG1 1 [(3, 20)]

/-- Directed graph after `add_edge(1, 2, 10)`, `add_edge(2, 5, 1)`,
`add_node(1, {3: 20})`. -/
def exG3 : Graph := add_node (add_edge (add_edge ⟨[], [], false⟩ 1 2 10) 2 5 1) 1 [(3, 20)]

/-- Directed graph with both arcs `1→2` and `2→1`. -/
def exG4 : Graph := add_edge (add_edge ⟨[], [], false⟩ 1 2 10) 2 1 20

/-- Undirected graph with the single edge `1 ↔ 2`. -/
def exGU : Graph := add_edge ⟨[], [], true⟩ 1 2 5

/-- Adjacency dict `{1: {2: 5}}`. -/
def exChainGraph : Dict2 := [(1, [(2, 5)])]

/-- A constant heuristic function returning `100`. -/
def exHeur : CostFn := fun _ _ _ _ => 100

/-- Persisted payload `{1: {2: 3}}`. -/
def exPayload : Dict2 := [(1, [(2, 3)])]

/-- The spec's concrete scenario graph
`{1:{2:1,3:2}, 2:{1:1,4:2,5:2}, 3:{4:2}, 4:{2:2,3:2,5:1}, 5:{2:2,4:1}}`. -/
def exSpecGraph : Dict2 :=
  [(1, [(2, 1), (3, 2)]), (2, [(1, 1), (4, 2), (5, 2)]), (3, [(4, 2)]),
   (4, [(2, 2), (3, 2), (5, 1)]), (5, [(2, 2), (4, 1)])]

/-! ## Proofs -/

theorem dget_dset_self {α : Type} (d : List (Nat × α)) (k : Nat) (v : α) :
    dget (dset d k v) k = some v := by
  induction d with
  | nil => simp [dset, dget]
  | cons p t ih =>
    simp only [dset]
    by_cases hk : p.1 = k
    · simp [dget, hk]
    · simp only [if_neg hk, dget, if_neg hk]
      exact ih

theorem dget_dset_ne {α : Type} (d : List (Nat × α)) (k k' : Nat) (v : α)
    (h : k' ≠ k) : dget (dset d k v) k' = dget d k' := by
  induction d with
  | nil =>
    simp only [dset, dget]
    rw [if_neg (show ¬ k = k' from fun hh => h hh.symm)]
  | cons p t ih =>
    simp only [dset]
    by_cases hk : p.1 = k
    · have hp : ¬ p.1 = k' := by rw [hk]; exact fun hh => h hh.symm
      rw [if_pos hk]
      simp only [dget, hk]
      rw [if_neg (show ¬ k = k' from fun hh => h hh.symm),
        if_neg (show ¬ k = k' from fun hh => h hh.symm)]
    · simp only [if_neg hk, dget]
      split
      · rfl
      · exact ih

theorem dget_ddel {α : Type} (d : List (Nat × α)) (k k' : Nat) :
    dget (ddel d k) k' = if k' = k then none else dget d k' := by
  induction d with
  | nil => simp [ddel, dget]
  | cons p t ih =>
    simp only [ddel]
    by_cases hk : p.1 = k
    · rw [if_pos hk, ih]
      by_cases hk' : k' = k
      · rw [if_pos hk', if_pos hk']
      · rw [if_neg hk', if_neg hk']
        have hp : ¬ p.1 = k' := by rw [hk]; exact fun hh => hk' hh.symm
        simp [dget, hp]
    · rw [if_neg hk]
      simp only [dget]
      by_cases hp : p.1 = k'
      · rw [if_pos hp, if_pos hp, if_neg (fun hh : k' = k => hk (hh ▸ hp))]
      · rw [if_neg hp, if_neg hp, ih]

theorem dget_dset_dset {α : Type} (d : List (Nat × α)) (k : Nat) (a b : α) (k' : Nat) :
    dget (dset (dset d k a) k b) k' = dget (dset d k b) k' := by
  by_cases h : k' = k
  · subst h; rw [dget_dset_self, dget_dset_self]
  · rw [dget_dset_ne _ _ _ _ h, dget_dset_ne _ _ _ _ h, dget_dset_ne _ _ _ _ h]

theorem dget_mem {α : Type} {d : List (Nat × α)} {k : Nat} {v : α}
    (h : dget d k = some v) : (k, v) ∈ d := by
  induction d with
  | nil => simp [dget] at h
  | cons p t ih =>
    cases p with
    | mk a b =>
      simp only [dget] at h
      by_cases hk : a = k
      · rw [if_pos hk] at h
        injection h with hbv
        subst hk
        subst hbv
        exact List.mem_cons_self _ _
      · rw [if_neg hk] at h
        exact List.mem_cons_of_mem _ (ih h)

theorem dget_isSome_of_mem {α : Type} {d : List (Nat × α)} {k : Nat} {v : α}
    (h : (k, v) ∈ d) : (dget d k).isSome := by
  induction d with
  | nil => simp at h
  | cons p t ih =>
    rcases List.mem_cons.mp h with h1 | h1
    · simp [dget, ← h1]
    · simp only [dget]
      split
      · simp
      · exact ih h1

theorem dget_none_not_mem_keys {α : Type} {d : List (Nat × α)} {k : Nat}
    (h : dget d k = none) : k ∉ d.map Prod.fst := by
  intro hmem
  rcases List.mem_map.mp hmem with ⟨p, hp, hpk⟩
  have := dget_isSome_of_mem (k := p.1) (v := p.2) (by simpa using hp)
  rw [hpk, h] at this
  simp at this

/-- With duplicate-free keys (always true of dicts built by the embedded
operations, as Python dicts cannot hold duplicate keys), membership pins
down the lookup result. -/
theorem dget_eq_of_mem_nodup {α : Type} {d : List (Nat × α)} {k : Nat} {v : α}
    (hnd : (d.map Prod.fst).Nodup) (h : (k, v) ∈ d) : dget d k = some v := by
  induction d with
  | nil => simp at h
  | cons p t ih =>
    simp only [List.map_cons, List.nodup_cons] at hnd
    rcases List.mem_cons.mp h with h1 | h1
    · simp [dget, ← h1]
    · simp only [dget]
      by_cases hk : p.1 = k
      · exfalso
        exact hnd.1 (hk ▸ (List.mem_map.mpr ⟨(k, v), h1, rfl⟩))
      · rw [if_neg hk]
        exact ih hnd.2 h1

theorem keys_dset {α : Type} (d : List (Nat × α)) (k : Nat) (v : α) :
    (dset d k v).map Prod.fst =
      if (dget d k).isSome then d.map Prod.fst else d.map Prod.fst ++ [k] := by
  induction d with
  | nil => simp [dset, dget]
  | cons p t ih =>
    simp only [dset, dget]
    by_cases hk : p.1 = k
    · simp [hk]
    · simp only [if_neg hk, List.map_cons, ih]
      split <;> simp

theorem keysNodup_dset {α : Type} (d : List (Nat × α)) (k : Nat) (v : α)
    (h : (d.map Prod.fst).Nodup) : ((dset d k v).map Prod.fst).Nodup := by
  rw [keys_dset]
  split
  · exact h
  · rename_i hs
    cases hd : dget d k with
    | some w => rw [hd] at hs; simp at hs
    | none =>
      rw [List.nodup_append]
      exact ⟨h, List.nodup_singleton _,
        fun a ha => by
          simp only [List.mem_singleton]
          intro hak
          exact dget_none_not_mem_keys hd (hak ▸ ha)⟩

theorem dget_isSome_dset {α : Type} (d : List (Nat × α)) (k k' : Nat) (v : α)
    (h : (dget d k').isSome) : (dget (dset d k v) k').isSome := by
  by_cases hk : k' = k
  · subst hk; rw [dget_dset_self]; simp
  · rw [dget_dset_ne _ _ _ _ hk]; exact h

theorem length_dset {α : Type} (d : List (Nat × α)) (k : Nat) (v : α) :
    d.length ≤ (dset d k v).length := by
  induction d with
  | nil => simp [dset]
  | cons p t ih =>
    simp only [dset]
    split
    · simp
    · simpa using ih

theorem dget2_mem {d : Dict2} {u v : Nat} {e : Int} (h : dget2 d u v = some e) :
    ∃ row, (u, row) ∈ d ∧ (v, e) ∈ row := by
  unfold dget2 at h
  cases hrow : dget d u with
  | none => rw [hrow] at h; simp at h
  | some row =>
    rw [hrow] at h
    simp only [Option.some_bind] at h
    exact ⟨row, dget_mem hrow, dget_mem h⟩

theorem dualIndexCheck_sound {g : Graph} (h : dualIndexCheck g = true) :
    DualIndexInv g := by
  unfold dualIndexCheck at h
  rw [Bool.and_eq_true] at h
  constructor
  · intro u v e hget
    rcases dget2_mem hget with ⟨row, hrow, hv⟩
    have h1 := (List.all_eq_true.mp h.1) _ hrow
    have h2 := (List.all_eq_true.mp h1) _ hv
    simpa using h2
  · intro v u e hget
    rcases dget2_mem hget with ⟨row, hrow, hu⟩
    have h1 := (List.all_eq_true.mp h.2) _ hrow
    have h2 := (List.all_eq_true.mp h1) _ hu
    simpa using h2


/-! ## Claim C1 -/

/-- C1: the claim that every mutation (add_edge, add_node with neighbors,
remove_edge, remove_node) preserves the dual-index invariant fails on the
code: `add_edge(1, 2, 10)` establishes the invariant, but the directed
`add_node(1, {3: 20})` replaces node 1's full neighbor set without removing
the stale incoming-index entry `incoming[2][1]`, so the invariant is broken
afterwards; on the analogous graph `exG3`, the stale entry then makes
`remove_node(2)` raise `KeyError`. -/
theorem c1_add_node_breaks_dual_index :
    DualIndexInv exG1 ∧ ¬ DualIndexInv exG2 ∧
    dget2 exG2.incoming 2 1 = some 10 ∧ dget2 exG2.data 1 2 = none ∧
    (remove_node exG3 2).isErr = true := by
  refine ⟨dualIndexCheck_sound (by decide), ?_, by decide, by decide, by decide⟩
  intro h
  exact absurd (h.2 2 1 10 (by decide)) (by decide)

/-! ## Claim C2 -/

/-- C2 counterexample: with heuristic constantly 100 on graph `{1: {2: 5}}`,
the search records `costs[2] = 105`, i.e. tentative cost 5 plus the
heuristic, not the tentative cost 5 that the claim says is recorded. -/
theorem c2_cex_recorded_cost_includes_heuristic :
    dget ((ssspLoop none (some exHeur) none 10 (initState exChainGraph [] 1)).state.costs) 2
        = some 105 ∧ (105 : Int) ≠ 5 :=
  ⟨rfl, by decide⟩

/-- C2 amended: when a heuristic is supplied, the heuristic contribution is
included both in the recorded cost `costs[v]` and in the pushed queue key
(they are the same value `tentative + heuristic`); only the per-edge cost
stored in the predecessor entry stays heuristic-free. -/
theorem c2_amended_heuristic_in_recorded_cost (cF : Option CostFn) (h : CostFn)
    (u v : Nat) (e costU : Int) (prevE : Option Int) (st : SsspState)
    (hv : v ∉ st.visited)
    (himp : improves st.costs v (costU + computeCost cF u v e prevE + h u v e prevE) = true) :
    (relaxOne cF (some h) u costU prevE st (v, e)).costs
        = dset st.costs v (costU + computeCost cF u v e prevE + h u v e prevE) ∧
    (relaxOne cF (some h) u costU prevE st (v, e)).queue
        = st.queue ++ [(costU + computeCost cF u v e prevE + h u v e prevE, st.counter, v)] ∧
    (relaxOne cF (some h) u costU prevE st (v, e)).predecessors
        = dset st.predecessors v (some (u, e, computeCost cF u v e prevE)) := by
  unfold relaxOne
  rw [if_neg (show ¬ ((v, e).1 ∈ st.visited) from hv)]
  rw [show relaxTotal cF (some h) u (v, e).1 (v, e).2 costU prevE
      = costU + computeCost cF u v e prevE + h u v e prevE from rfl]
  rw [if_pos himp]
  exact ⟨rfl, rfl, rfl⟩

/-- Witness for the amended C2 at `u = 1`, `v = 2`, `e = 5`, `costU = 0` on
the freshly initialized search state. -/
theorem c2_amended_heuristic_witness :
    (2 ∉ (initState exChainGraph [] 1).visited) ∧
    improves (initState exChainGraph [] 1).costs 2
      (0 + computeCost none 1 2 5 none + exHeur 1 2 5 none) = true ∧
    (relaxOne none (some exHeur) 1 0 none (initState exChainGraph [] 1) (2, 5)).costs
      = dset (initState exChainGraph [] 1).costs 2
          (0 + computeCost none 1 2 5 none + exHeur 1 2 5 none) :=
  ⟨by decide, by decide,
    (c2_amended_heuristic_in_recorded_cost none exHeur 1 2 5 0 none
      (initState exChainGraph [] 1) (by decide) (by decide)).1⟩

/-! ## Claim C4 -/

/-- C4 counterexample: on the directed graph `exG4` holding both arcs
`1→2` and `2→1`, `remove_edge(1, 2)` also removes the reverse arc `2→1`
and its incoming mirror, though the claim says an existing reverse arc is
left unchanged on a directed graph. -/
theorem c4_cex_reverse_arc_removed_on_directed :
    exG4.undirected = false ∧ dget2 exG4.data 2 1 = some 20 ∧
    (remove_edge exG4 1 2).isErr = false ∧
    dget2 (remove_edge exG4 1 2).state.data 2 1 = none ∧
    dget2 (remove_edge exG4 1 2).state.incoming 1 2 = none :=
  ⟨rfl, by decide, by decide, by decide, by decide⟩

/-! ## Claim C5 -/

/-- C5 counterexample: `subgraph([1])` of the graph `{1: {2: 10}}` keeps the
edge `1→2` although node 2 is not among the selected nodes, contradicting
the claim that only edges with both endpoints selected are kept. -/
theorem c5_cex_subgraph_keeps_outside_edges :
    (subgraph exG1 [1] false).isErr = false ∧
    dget2 (subgraph exG1 [1] false).state.data 1 2 = some 10 :=
  ⟨by decide, by decide⟩

/-! ## Claim C8 -/

/-- C8: extension-based dispatch works, and the pickle-then-marshal
fallback works for open-file inputs, with `ValueError` when both decoders
fail; but for a file-path input whose extension gives no hint, the fallback
crashes with `AttributeError` at `from_.seek(0)` (a `str` has no `seek`)
instead of trying the marshal decoder, contradicting the claim and the
method's own docstring. -/
theorem c8_guess_load_fallback_evidence :
    guess_load (.path ".pickle" (.pickled exPayload)) "" = .ok (graphInit exPayload false) ∧
    guess_load (.path ".marshal" (.marshalled exPayload)) "" = .ok (graphInit exPayload false) ∧
    guess_load (.file (.pickled exPayload)) "" = .ok (graphInit exPayload false) ∧
    guess_load (.file (.marshalled exPayload)) "" = .ok (graphInit exPayload false) ∧
    guess_load (.file .garbage) "" = .error .valueError ∧
    guess_load (.path ".dat" (.marshalled exPayload)) "" = .error .attributeError ∧
    guess_load (.path "" (.marshalled exPayload)) "" = .error .attributeError :=
  ⟨rfl, rfl, rfl, rfl, rfl, rfl, rfl⟩

/-! ## Claim C9 -/

theorem add_node_undirected (g : Graph) (u : Nat) (r : Row) :
    (add_node g u r).undirected = g.undirected := rfl

theorem graphInit_undirected_aux (d : Dict2) (g0 : Graph) :
    (d.foldl (fun g p => add_node g p.1 p.2) g0).undirected = g0.undirected := by
  induction d generalizing g0 with
  | nil => rfl
  | cons p t ih => rw [List.foldl_cons, ih, add_node_undirected]

theorem graphInit_undirected (d : Dict2) (u0 : Bool) :
    (graphInit d u0).undirected = u0 :=
  graphInit_undirected_aux d _

theorem load_ok_undirected {src : Source} {g : Graph} (h : load src = .ok g) :
    g.undirected = false := by
  unfold load graph_read at h
  cases hc : pickle_load (contentOf src) with
  | ok data =>
    rw [hc] at h
    injection h with h1
    rw [← h1]
    exact graphInit_undirected _ _
  | error err =>
    rw [hc] at h
    exact Except.noConfusion h

theorem unmarshal_ok_undirected {src : Source} {g : Graph} (h : unmarshal src = .ok g) :
    g.undirected = false := by
  unfold unmarshal graph_read at h
  cases hc : marshal_load (contentOf src) with
  | ok data =>
    rw [hc] at h
    injection h with h1
    rw [← h1]
    exact graphInit_undirected _ _
  | error err =>
    rw [hc] at h
    exact Except.noConfusion h

theorem guess_load_shape (src : Source) (ea : String) :
    guess_load src ea = load src ∨ guess_load src ea = unmarshal src ∨
    (∃ d, guess_load src ea = .ok (graphInit d false)) ∨
    (∃ er, guess_load src ea = .error er) := by
  unfold guess_load
  split
  · exact Or.inl rfl
  · split
    · exact Or.inr (Or.inl rfl)
    · split
      · rename_i g' heq
        exact Or.inl (by rw [heq])
      · split
        · exact Or.inr (Or.inr (Or.inr ⟨_, rfl⟩))
        · split
          · exact Or.inr (Or.inr (Or.inl ⟨_, rfl⟩))
          · exact Or.inr (Or.inr (Or.inr ⟨_, rfl⟩))

theorem guess_load_ok_undirected {src : Source} {ea : String} {g : Graph}
    (h : guess_load src ea = .ok g) : g.undirected = false := by
  rcases guess_load_shape src ea with hs | hs | ⟨d, hs⟩ | ⟨er, hs⟩
  · exact load_ok_undirected (hs ▸ h)
  · exact unmarshal_ok_undirected (hs ▸ h)
  · rw [hs] at h
    injection h with h1
    rw [← h1]
    exact graphInit_undirected _ _
  · rw [hs] at h
    exact Except.noConfusion h

/-- C9: every graph produced by `Graph.load`, `Graph.unmarshal` or
`Graph.guess_load` is in directed mode (the flag is not persisted and the
loader builds `cls(data)` with the default), so e.g. `edge_count` of a
loaded undirected graph no longer halves the raw entry count: the
undirected `exGU` has `edge_count` 1, its reloaded image has `edge_count`
2, even though the loaded adjacency data is still symmetric. -/
theorem c9_loaded_graphs_directed (src : Source) (g : Graph)
    (h : load src = .ok g ∨ unmarshal src = .ok g ∨ guess_load src "" = .ok g) :
    g.undirected = false ∧
    exGU.undirected = true ∧
    edge_count exGU = some 1 ∧
    loadedGraph (load (.file (.pickled exGU.data))) = graphInit exGU.data false ∧
    (graphInit exGU.data false).undirected = false ∧
    edge_count (graphInit exGU.data false) = some 2 ∧
    dget2 (graphInit exGU.data false).data 1 2 = some 5 ∧
    dget2 (graphInit exGU.data false).data 2 1 = some 5 := by
  refine ⟨?_, rfl, by decide, by decide, rfl, by decide, by decide, by decide⟩
  rcases h with h | h | h
  · exact load_ok_undirected h
  · exact unmarshal_ok_undirected h
  · exact guess_load_ok_undirected h

/-- Witness for C9 at a concrete pickled payload. -/
theorem c9_loaded_graphs_directed_witness :
    (load (.file (.pickled exPayload)) = Except.ok (graphInit exPayload false) ∨
      unmarshal (.file (.pickled exPayload)) = Except.ok (graphInit exPayload false) ∨
      guess_load (.file (.pickled exPayload)) "" = Except.ok (graphInit exPayload false)) ∧
    (graphInit exPayload false).undirected = false :=
  ⟨Or.inl rfl,
    (c9_loaded_graphs_directed (.file (.pickled exPayload)) (graphInit exPayload false)
      (Or.inl rfl)).1⟩

/-! ## Claim C10 -/

/-- C10: on a directed graph, when the arc `u→v` exists but `v` has no
outgoing-adjacency entry, `remove_edge(u, v)` raises `KeyError` (at the
`u in data[v]` lookup), and at that point the forward arc and its
incoming-index mirror have already been deleted. -/
theorem c10_remove_edge_keyerror_mutated (g : Graph) (u v : Nat) (e e' : Int)
    (_hdir : g.undirected = false)
    (hv : dget g.data v = none)
    (hfwd : dget2 g.data u v = some e)
    (hmir : dget2 g.incoming v u = some e') :
    (remove_edge g u v).isErr = true ∧
    dget2 (remove_edge g u v).state.data u v = none ∧
    dget2 (remove_edge g u v).state.incoming v u = none := by
  have hne : u ≠ v := by
    intro he
    rw [he] at hfwd
    unfold dget2 at hfwd
    rw [hv] at hfwd
    simp at hfwd
  obtain ⟨rowU, hu, huv⟩ : ∃ rowU, dget g.data u = some rowU ∧ dget rowU v = some e := by
    unfold dget2 at hfwd
    cases hg : dget g.data u with
    | none => rw [hg] at hfwd; simp at hfwd
    | some rowU =>
      rw [hg] at hfwd
      simp only [Option.some_bind] at hfwd
      exact ⟨rowU, rfl, hfwd⟩
  obtain ⟨rowIV, hiv, hivu⟩ : ∃ rowIV, dget g.incoming v = some rowIV ∧ dget rowIV u = some e' := by
    unfold dget2 at hmir
    cases hg : dget g.incoming v with
    | none => rw [hg] at hmir; simp at hmir
    | some rowIV =>
      rw [hg] at hmir
      simp only [Option.some_bind] at hmir
      exact ⟨rowIV, rfl, hmir⟩
  have hdv : dget (dset g.data u (ddel rowU v)) v = none := by
    rw [dget_dset_ne _ _ _ _ (fun hh : v = u => hne hh.symm)]
    exact hv
  have hstep : remove_edge g u v = .keyError
      { g with
        data := dset g.data u (ddel rowU v)
        incoming :=
          if (ddel rowIV u).isEmpty
          then ddel (dset (dset g.incoming v rowIV) v (ddel rowIV u)) v
          else dset (dset g.incoming v rowIV) v (ddel rowIV u) } := by
    unfold remove_edge
    simp only [hu, huv, hiv, Option.getD_some, hivu, hdv]
  rw [hstep]
  refine ⟨rfl, ?_, ?_⟩
  · show dget2 (dset g.data u (ddel rowU v)) u v = none
    unfold dget2
    rw [dget_dset_self]
    simp only [Option.some_bind]
    rw [dget_ddel, if_pos rfl]
  · show dget2 (if (ddel rowIV u).isEmpty
        then ddel (dset (dset g.incoming v rowIV) v (ddel rowIV u)) v
        else dset (dset g.incoming v rowIV) v (ddel rowIV u)) v u = none
    split
    · unfold dget2
      rw [dget_ddel, if_pos rfl]
      rfl
    · unfold dget2
      rw [dget_dset_self]
      simp only [Option.some_bind]
      rw [dget_ddel, if_pos rfl]

/-- Witness for C10 on `exG1 = {1: {2: 10}}` with `remove_edge(1, 2)`. -/
theorem c10_remove_edge_keyerror_witness :
    exG1.undirected = false ∧ dget exG1.data 2 = none ∧
    dget2 exG1.data 1 2 = some 10 ∧ dget2 exG1.incoming 2 1 = some 10 ∧
    (remove_edge exG1 1 2).isErr = true :=
  ⟨rfl, by decide, by decide, by decide,
    (c10_remove_edge_keyerror_mutated exG1 1 2 10 10 rfl (by decide) (by decide)
      (by decide)).1⟩

/-! ## Claim C6 -/

theorem relaxOne_fields (cF hF : Option CostFn) (u : Nat) (cU : Int) (pe : Option Int)
    (st : SsspState) (ve : Nat × Int) :
    (relaxOne cF hF u cU pe st ve).graph = st.graph ∧
    (relaxOne cF hF u cU pe st ve).annex = st.annex ∧
    (relaxOne cF hF u cU pe st ve).visited = st.visited := by
  unfold relaxOne
  split
  · exact ⟨rfl, rfl, rfl⟩
  · split
    · exact ⟨rfl, rfl, rfl⟩
    · exact ⟨rfl, rfl, rfl⟩

theorem relaxFold_fields (cF hF : Option CostFn) (u : Nat) (cU : Int) (pe : Option Int)
    (ns : Row) (st : SsspState) :
    (ns.foldl (relaxOne cF hF u cU pe) st).graph = st.graph ∧
    (ns.foldl (relaxOne cF hF u cU pe) st).annex = st.annex ∧
    (ns.foldl (relaxOne cF hF u cU pe) st).visited = st.visited := by
  induction ns generalizing st with
  | nil => exact ⟨rfl, rfl, rfl⟩
  | cons p t ih =>
    rw [List.foldl_cons]
    have h1 := relaxOne_fields cF hF u cU pe st p
    have h2 := ih (relaxOne cF hF u cU pe st p)
    exact ⟨h2.1.trans h1.1, (h2.2.1).trans h1.2.1, (h2.2.2).trans h1.2.2⟩

theorem ssspLoop_frame (cF hF : Option CostFn) (d : Option Nat) :
    ∀ (fuel : Nat) (st st' : SsspState), ssspLoop cF hF d fuel st = .out st' →
      st'.graph = st.graph ∧ st'.annex = st.annex := by
  intro fuel
  induction fuel with
  | zero =>
    intro st st' h
    exact RunRes.noConfusion h
  | succ n ih =>
    intro st st' h
    unfold ssspLoop at h
    cases hq : popMin st.queue with
    | none =>
      rw [hq] at h
      injection h with h1
      rw [← h1]
      exact ⟨rfl, rfl⟩
    | some pr =>
      rw [hq] at h
      simp only [] at h
      split at h
      · injection h with h1
        rw [← h1]
        exact ⟨rfl, rfl⟩
      · split at h
        · have hh := ih _ _ h
          exact ⟨hh.1, hh.2⟩
        · split at h
          · have hh := ih _ _ h
            exact ⟨hh.1, hh.2⟩
          · split at h
            · have hh := ih _ _ h
              exact ⟨hh.1, hh.2⟩
            · split at h
              · exact RunRes.noConfusion h
              · have hh := ih _ _ h
                refine ⟨hh.1.trans ?_, hh.2.trans ?_⟩
                · exact (relaxFold_fields _ _ _ _ _ _ _).1
                · exact (relaxFold_fields _ _ _ _ _ _ _).2.1

/-- C6: during a search, a node present in the annex draws its neighbor set
exclusively from the annex (the selected row is exactly the annex row,
never merged with the base graph's, including the empty row), and a search
that returns leaves the base graph's adjacency and the annex exactly as
they were at initialization. -/
theorem c6_annex_replaces_and_base_unchanged (graph annex : Dict2) (u : Nat) (ns : Row)
    (s : Nat) (d : Option Nat) (cF hF : Option CostFn) (fuel : Nat)
    (h1 : dget annex u = some ns)
    (h2 : (single_source_shortest_paths graph annex s d cF hF fuel).isOk = true) :
    selectNeighbors graph annex u = some ns ∧
    (single_source_shortest_paths graph annex s d cF hF fuel).state.graph = graph ∧
    (single_source_shortest_paths graph annex s d cF hF fuel).state.annex = annex := by
  refine ⟨by unfold selectNeighbors; rw [h1], ?_⟩
  unfold single_source_shortest_paths at h2 ⊢
  cases hrun : ssspLoop cF hF d fuel (initState graph annex s) with
  | out st =>
    have hf := ssspLoop_frame cF hF d fuel (initState graph annex s) st hrun
    rw [hrun] at h2
    cases d with
    | none => exact ⟨hf.1, hf.2⟩
    | some dd =>
      by_cases hc : (dget st.costs dd).isSome
      · have hgoal :
            (if (dget st.costs dd).isSome = true then SsspOut.ok st
              else SsspOut.noPath).state.graph = graph ∧
            (if (dget st.costs dd).isSome = true then SsspOut.ok st
              else SsspOut.noPath).state.annex = annex := by
          rw [if_pos hc]
          exact ⟨hf.1, hf.2⟩
        exact hgoal
      · have hx : (if (dget st.costs dd).isSome = true then SsspOut.ok st
            else SsspOut.noPath).isOk = true := h2
        rw [if_neg hc] at hx
        exact Bool.noConfusion hx
  | fuelOut =>
    rw [hrun] at h2
    exact Bool.noConfusion h2
  | keyErr =>
    rw [hrun] at h2
    exact Bool.noConfusion h2

/-- Witness for C6: annex `{1: {}}` overrides node 1's base neighbors
`{2: 5}`, so the search from 1 stops immediately; the base graph and annex
are untouched. -/
theorem c6_annex_witness :
    dget [(1, ([] : Row))] 1 = some [] ∧
    (single_source_shortest_paths exChainGraph [(1, [])] 1 none none none 5).isOk = true ∧
    selectNeighbors exChainGraph [(1, [])] 1 = some [] ∧
    (single_source_shortest_paths exChainGraph [(1, [])] 1 none none none 5).state.graph
      = exChainGraph :=
  ⟨by decide, by decide,
    (c6_annex_replaces_and_base_unchanged exChainGraph [(1, [])] 1 [] 1 none none none 5
      (by decide) (by decide)).1,
    (c6_annex_replaces_and_base_unchanged exChainGraph [(1, [])] 1 [] 1 none none none 5
      (by decide) (by decide)).2.1⟩

/-! ## Search-loop invariant machinery (claims C3 and C7) -/

theorem idxIn_le_length (l : List Nat) (x : Nat) : idxIn l x ≤ l.length := by
  induction l with
  | nil => simp [idxIn]
  | cons y t ih =>
    simp only [idxIn, List.length_cons]
    split
    · omega
    · omega

theorem idxIn_lt_length_of_mem {l : List Nat} {x : Nat} (h : x ∈ l) :
    idxIn l x < l.length := by
  induction l with
  | nil => simp at h
  | cons y t ih =>
    simp only [idxIn, List.length_cons]
    by_cases hy : y = x
    · rw [if_pos hy]; omega
    · rw [if_neg hy]
      have hx : x ∈ t := by
        rcases List.mem_cons.mp h with h1 | h1
        · exact absurd h1.symm hy
        · exact h1
      have := ih hx
      omega

theorem idxIn_eq_length_of_not_mem {l : List Nat} {x : Nat} (h : x ∉ l) :
    idxIn l x = l.length := by
  induction l with
  | nil => rfl
  | cons y t ih =>
    by_cases hy : y = x
    · subst hy
      exact absurd (List.mem_cons_self y t) h
    · simp only [idxIn, List.length_cons]
      rw [if_neg hy, ih (fun hx => h (List.mem_cons_of_mem _ hx))]

theorem idxIn_append_of_mem {l : List Nat} {x : Nat} (l' : List Nat) (h : x ∈ l) :
    idxIn (l ++ l') x = idxIn l x := by
  induction l with
  | nil => simp at h
  | cons y t ih =>
    simp only [List.cons_append, idxIn]
    by_cases hy : y = x
    · rw [if_pos hy, if_pos hy]
    · rw [if_neg hy, if_neg hy]
      have hx : x ∈ t := by
        rcases List.mem_cons.mp h with h1 | h1
        · exact absurd h1.symm hy
        · exact h1
      exact congrArg (· + 1) (ih hx)

theorem idxIn_append_self {l : List Nat} {x : Nat} (h : x ∉ l) :
    idxIn (l ++ [x]) x = l.length := by
  induction l with
  | nil => simp [idxIn]
  | cons y t ih =>
    simp only [List.cons_append, idxIn, List.length_cons]
    rw [if_neg (fun hy => h (List.mem_cons.mpr (Or.inl hy.symm)))]
    exact congrArg (· + 1) (ih (fun hx => h (List.mem_cons_of_mem _ hx)))

theorem foldlMin_mem (rest : List Trip) : ∀ t : Trip,
    rest.foldl (fun a b => if tripLe a b then a else b) t ∈ t :: rest := by
  induction rest with
  | nil => intro t; simp
  | cons b r ih =>
    intro t
    rw [List.foldl_cons]
    have h1 := ih (if tripLe t b then t else b)
    have h2 : (if tripLe t b then t else b) = t ∨ (if tripLe t b then t else b) = b := by
      split
      · exact Or.inl rfl
      · exact Or.inr rfl
    rcases List.mem_cons.mp h1 with h3 | h3
    · rw [h3]
      rcases h2 with h4 | h4 <;> rw [h4] <;> simp
    · simp [h3]

theorem popMin_mem {q : List Trip} {t : Trip} {rest : List Trip}
    (h : popMin q = some (t, rest)) : t ∈ q := by
  cases q with
  | nil => simp [popMin] at h
  | cons a r =>
    simp only [popMin] at h
    injection h with h1
    rw [Prod.mk.injEq] at h1
    rw [← h1.1]
    exact foldlMin_mem r a

theorem popMin_subset {q : List Trip} {t : Trip} {rest : List Trip}
    (h : popMin q = some (t, rest)) : rest ⊆ q := by
  cases q with
  | nil => simp [popMin] at h
  | cons a r =>
    simp only [popMin] at h
    injection h with h1
    rw [Prod.mk.injEq] at h1
    rw [← h1.2]
    exact List.erase_subset _ _

theorem selectNeighbors_nodup {graph annex : Dict2} {u : Nat} {ns : Row}
    (hg : RowsWF graph) (ha : RowsWF annex)
    (h : selectNeighbors graph annex u = some ns) : (ns.map Prod.fst).Nodup := by
  unfold selectNeighbors at h
  cases hA : dget annex u with
  | some r =>
    rw [hA] at h
    injection h with h1
    subst h1
    exact ha _ (dget_mem hA)
  | none =>
    rw [hA] at h
    exact hg _ (dget_mem h)

theorem relaxOne_inv {s : Nat} {cF : Option CostFn} (hF : Option CostFn) (u : Nat) (cU : Int)
    {st : SsspState} (ve : Nat × Int) {ns0 : Row}
    (inv : SearchInv s cF st)
    (hu : u ∈ st.visited)
    (hsel : selectNeighbors st.graph st.annex u = some ns0)
    (hmem : ve ∈ ns0) :
    SearchInv s cF (relaxOne cF hF u cU (prevEdgeOf st.predecessors u) st ve) ∧
    (∀ w, w ∈ st.visited →
      dget (relaxOne cF hF u cU (prevEdgeOf st.predecessors u) st ve).predecessors w
        = dget st.predecessors w) := by
  obtain ⟨v, e⟩ := ve
  by_cases hv : v ∈ st.visited
  · unfold relaxOne
    rw [if_pos (show (v, e).1 ∈ st.visited from hv)]
    exact ⟨inv, fun w _ => rfl⟩
  · unfold relaxOne
    rw [if_neg (show ¬ (v, e).1 ∈ st.visited from hv)]
    by_cases himp : improves st.costs (v, e).1
        (relaxTotal cF hF u (v, e).1 (v, e).2 cU (prevEdgeOf st.predecessors u)) = true
    case neg =>
      rw [if_neg himp]
      exact ⟨inv, fun w _ => rfl⟩
    case pos =>
      rw [if_pos himp]
      have hsv : s ∈ st.visited := by
        rcases inv.startOk with h1 | h1
        · exact h1
        · rw [h1.1] at hu
          simp at hu
      have hvs : v ≠ s := fun hh => hv (hh ▸ hsv)
      have hvu : v ≠ u := fun hh => hv (hh ▸ hu)
      refine ⟨⟨inv.rowsG, inv.rowsA, inv.visNodup,
        keysNodup_dset _ _ _ inv.predKeysNodup,
        Or.inl hsv, ?_, ?_, ?_, ?_, ?_, ?_, ?_⟩, ?_⟩
      · show dget (dset st.predecessors v _) s = some none
        rw [dget_dset_ne _ _ _ _ (fun hh : s = v => hvs hh.symm)]
        exact inv.predS
      · show dget (dset st.costs v _) s = some 0
        rw [dget_dset_ne _ _ _ _ (fun hh : s = v => hvs hh.symm)]
        exact inv.costS
      · intro w
        by_cases hwv : w = v
        · subst hwv
          show (dget (dset st.costs w _) w).isSome ↔ (dget (dset st.predecessors w _) w).isSome
          rw [dget_dset_self, dget_dset_self]
          simp
        · show (dget (dset st.costs v _) w).isSome ↔ (dget (dset st.predecessors v _) w).isSome
          rw [dget_dset_ne _ _ _ _ hwv, dget_dset_ne _ _ _ _ hwv]
          exact inv.sync w
      · intro w hw
        by_cases hwv : w = v
        · subst hwv
          rw [dget_dset_self] at hw
          injection hw with hw1
          exact Option.noConfusion hw1
        · rw [dget_dset_ne _ _ _ _ hwv] at hw
          exact inv.noneIsStart w hw
      · intro t ht
        rcases List.mem_append.mp ht with h1 | h1
        · exact dget_isSome_dset _ _ _ _ (inv.queueReached t h1)
        · have ht2 : t = (relaxTotal cF hF u v e cU (prevEdgeOf st.predecessors u), st.counter, v) := by
            simpa using h1
          rw [ht2]
          show (dget (dset st.predecessors v _) v).isSome
          rw [dget_dset_self]
          simp
      · intro w hw
        exact dget_isSome_dset _ _ _ _ (inv.visReached w hw)
      · intro w x e' c' hw
        by_cases hwv : w = v
        · subst hwv
          rw [dget_dset_self] at hw
          simp only [Option.some.injEq, Prod.mk.injEq] at hw
          obtain ⟨hx, he, hc⟩ := hw
          subst hx
          subst he
          subst hc
          refine ⟨hu, fun hvv => absurd hvv hv, ?_, ?_⟩
          · unfold arcLookup
            rw [hsel]
            simp only [Option.some_bind]
            exact dget_eq_of_mem_nodup
              (selectNeighbors_nodup inv.rowsG inv.rowsA hsel) hmem
          · have hpe : prevEdgeOf (dset st.predecessors w (some (u, e, computeCost cF u w e (prevEdgeOf st.predecessors u)))) u
                = prevEdgeOf st.predecessors u := by
              unfold prevEdgeOf
              rw [dget_dset_ne _ _ _ _ (fun hh : u = w => hvu hh.symm)]
            rw [hpe]
        · rw [dget_dset_ne _ _ _ _ hwv] at hw
          obtain ⟨ha1, ha2, ha3, ha4⟩ := inv.predShape w x e' c' hw
          have hxv : x ≠ v := fun hh => hv (hh ▸ ha1)
          refine ⟨ha1, ha2, ha3, ?_⟩
          have hpe : prevEdgeOf (dset st.predecessors v
              (some (u, e, computeCost cF u v e (prevEdgeOf st.predecessors u)))) x
                = prevEdgeOf st.predecessors x := by
            unfold prevEdgeOf
            rw [dget_dset_ne _ _ _ _ hxv]
          rw [hpe]
          exact ha4
      · intro w hw
        have hwv : w ≠ v := fun hh => hv (hh ▸ hw)
        show dget (dset st.predecessors v _) w = dget st.predecessors w
        exact dget_dset_ne _ _ _ _ hwv

theorem prevEdgeOf_congr {p1 p2 : PredMap} {u : Nat} (h : dget p1 u = dget p2 u) :
    prevEdgeOf p1 u = prevEdgeOf p2 u := by
  unfold prevEdgeOf
  rw [h]

theorem relaxFold_inv {s : Nat} {cF : Option CostFn} (hF : Option CostFn) (u : Nat) (cU : Int) :
    ∀ (ns : Row) (st : SsspState) (pe : Option Int) {ns0 : Row},
      SearchInv s cF st → u ∈ st.visited →
      selectNeighbors st.graph st.annex u = some ns0 →
      (∀ ve ∈ ns, ve ∈ ns0) →
      pe = prevEdgeOf st.predecessors u →
      SearchInv s cF (ns.foldl (relaxOne cF hF u cU pe) st) := by
  intro ns
  induction ns with
  | nil =>
    intro st pe ns0 inv _ _ _ _
    exact inv
  | cons p t ih =>
    intro st pe ns0 inv hu hsel hns hpe
    rw [List.foldl_cons]
    subst hpe
    have h1 := relaxOne_inv hF u cU p inv hu hsel (hns p (List.mem_cons_self p t))
    have hflds := relaxOne_fields cF hF u cU (prevEdgeOf st.predecessors u) st p
    refine ih (relaxOne cF hF u cU (prevEdgeOf st.predecessors u) st p)
      (prevEdgeOf st.predecessors u) h1.1 ?_ ?_
      (fun ve hve => hns ve (List.mem_cons_of_mem _ hve)) ?_
    · rw [hflds.2.2]
      exact hu
    · rw [hflds.1, hflds.2.1]
      exact hsel
    · exact (prevEdgeOf_congr (h1.2 u hu)).symm

theorem searchInv_init (graph annex : Dict2) (s : Nat) (cF : Option CostFn)
    (hg : RowsWF graph) (ha : RowsWF annex) :
    SearchInv s cF (initState graph annex s) := by
  refine ⟨hg, ha, List.nodup_nil, List.nodup_singleton s, Or.inr ⟨rfl, rfl, rfl, ?_⟩,
    ?_, ?_, ?_, ?_, ?_, ?_, ?_⟩
  · intro t ht
    simp only [initState, List.mem_singleton] at ht
    rw [ht]
  · show dget [(s, none)] s = some none
    simp [dget]
  · show dget [(s, 0)] s = some 0
    simp [dget]
  · intro v
    show (dget [(s, (0 : Int))] v).isSome ↔ (dget [(s, (none : PredEntry))] v).isSome
    by_cases hv : s = v <;> simp [dget, hv]
  · intro v hv
    simp only [dget] at hv
    split at hv
    · rename_i hsv
      exact hsv.symm
    · exact Option.noConfusion hv
  · intro t ht
    simp only [initState, List.mem_singleton] at ht
    rw [ht]
    show (dget [(s, (none : PredEntry))] s).isSome
    simp [dget]
  · intro w hw
    simp [initState] at hw
  · intro v x e' c' hv
    simp only [dget] at hv
    split at hv
    · injection hv with h1
      exact Option.noConfusion h1
    · exact Option.noConfusion hv

theorem ssspLoop_inv (s : Nat) (cF hF : Option CostFn) (d : Option Nat) :
    ∀ (fuel : Nat) (st st' : SsspState), SearchInv s cF st →
      ssspLoop cF hF d fuel st = .out st' → SearchInv s cF st' := by
  intro fuel
  induction fuel with
  | zero =>
    intro st st' _ h
    exact RunRes.noConfusion h
  | succ n ih =>
    intro st st' inv h
    unfold ssspLoop at h
    cases hq : popMin st.queue with
    | none =>
      rw [hq] at h
      injection h with h1
      rw [← h1]
      exact inv
    | some pr =>
      rw [hq] at h
      simp only [] at h
      have hsub : pr.2 ⊆ st.queue := popMin_subset (by rw [hq])
      have hqmem : pr.1 ∈ st.queue := popMin_mem (by rw [hq])
      have invPop : SearchInv s cF { st with queue := pr.2 } := by
        refine ⟨inv.rowsG, inv.rowsA, inv.visNodup, inv.predKeysNodup, ?_, inv.predS,
          inv.costS, inv.sync, inv.noneIsStart, ?_, inv.visReached, inv.predShape⟩
        · rcases inv.startOk with h1 | h1
          · exact Or.inl h1
          · exact Or.inr ⟨h1.1, h1.2.1, h1.2.2.1, fun tt htt => h1.2.2.2 tt (hsub htt)⟩
        · intro tt htt
          exact inv.queueReached tt (hsub htt)
      split at h
      · injection h with h1
        rw [← h1]
        exact invPop
      · split at h
        · exact ih _ _ invPop h
        · rename_i hnotd hnotvis
          have husome : (dget st.predecessors pr.1.2.2).isSome := inv.queueReached pr.1 hqmem
          have invVis : SearchInv s cF
              { st with queue := pr.2, visited := st.visited ++ [pr.1.2.2] } := by
            refine ⟨inv.rowsG, inv.rowsA, ?_, inv.predKeysNodup, ?_, inv.predS, inv.costS,
              inv.sync, inv.noneIsStart, ?_, ?_, ?_⟩
            · simp [List.nodup_append, inv.visNodup, hnotvis]
            · rcases inv.startOk with h1 | h1
              · exact Or.inl (List.mem_append_left _ h1)
              · have hts : pr.1.2.2 = s := h1.2.2.2 pr.1 hqmem
                exact Or.inl (by rw [h1.1]; simp [hts])
            · intro tt htt
              exact inv.queueReached tt (hsub htt)
            · intro w hw
              rcases List.mem_append.mp hw with h1 | h1
              · exact inv.visReached w h1
              · rw [show w = pr.1.2.2 by simpa using h1]
                exact husome
            · intro w x e' c' hw
              obtain ⟨ha1, ha2, ha3, ha4⟩ := inv.predShape w x e' c' hw
              refine ⟨List.mem_append_left _ ha1, ?_, ha3, ha4⟩
              intro hw2
              rcases List.mem_append.mp hw2 with h1 | h1
              · rw [idxIn_append_of_mem _ ha1, idxIn_append_of_mem _ h1]
                exact ha2 h1
              · have hwt : w = pr.1.2.2 := by simpa using h1
                subst hwt
                rw [idxIn_append_of_mem _ ha1, idxIn_append_self hnotvis]
                exact idxIn_lt_length_of_mem ha1
          split at h
          · exact ih _ _ invVis h
          · split at h
            · exact ih _ _ invVis h
            · split at h
              · exact RunRes.noConfusion h
              · rename_i x1 ns hsel hne x2 entry hentry
                refine ih _ _ ?_ h
                refine relaxFold_inv hF pr.1.2.2 pr.1.1 ns _ (entryEdge entry)
                  invVis (by simp) hsel (fun ve hve => hve) ?_
                unfold prevEdgeOf
                rw [hentry]

/-! ## Claim C3 -/

/-- C3 counterexample: `find_path` on the empty graph from 0 to 0 succeeds
with the degenerate path, although the claim says the NoPath error is
raised for every destination absent from both graph and annex, including
`d == s`. -/
theorem c3_cex_nonexistent_start_dest_succeeds :
    find_path [] [] 0 0 none none 10 = .ok ⟨[0], [], [], 0⟩ ∧
    dget ([] : Dict2) 0 = none :=
  ⟨by decide, rfl⟩

theorem find_path_ne_noPath_of_ok {graph annex : Dict2} {s d : Nat}
    {cF hF : Option CostFn} {fuel : Nat} {st : SsspState}
    (hss : single_source_shortest_paths graph annex s (some d) cF hF fuel = .ok st) :
    find_path graph annex s d cF hF fuel ≠ .noPath := by
  unfold find_path
  rw [hss]
  show (match extract_shortest_path_from_predecessor_list st.predecessors d
      (st.predecessors.length + 1) with
    | some p => FPOut.ok p
    | none => FPOut.err) ≠ FPOut.noPath
  cases extract_shortest_path_from_predecessor_list st.predecessors d
      (st.predecessors.length + 1) with
  | some p => exact fun hh => FPOut.noConfusion hh
  | none => exact fun hh => FPOut.noConfusion hh

/-- C3 amended: `find_path` raises NoPath exactly when the destination has
no recorded cost at loop termination. Because the start is seeded with
cost 0, `d = s` never raises, even when that node is absent from both the
graph and the annex; and a destination that occurs only as a neighbor
value is still found when reached. -/
theorem c3_amended_nopath_iff (graph annex : Dict2) (s d : Nat)
    (cF hF : Option CostFn) (fuel : Nat)
    (hg : RowsWF graph) (ha : RowsWF annex)
    (hout : (ssspLoop cF hF (some d) fuel (initState graph annex s)).isOut = true) :
    (find_path graph annex s d cF hF fuel = .noPath ↔
      dget (ssspLoop cF hF (some d) fuel (initState graph annex s)).state.costs d = none) ∧
    (d = s → find_path graph annex s d cF hF fuel ≠ .noPath) := by
  cases hrun : ssspLoop cF hF (some d) fuel (initState graph annex s) with
  | out st =>
    have inv := ssspLoop_inv s cF hF (some d) fuel _ st
      (searchInv_init graph annex s cF hg ha) hrun
    have hss : single_source_shortest_paths graph annex s (some d) cF hF fuel
        = if (dget st.costs d).isSome = true then .ok st else .noPath := by
      unfold single_source_shortest_paths
      rw [hrun]
    refine ⟨?_, ?_⟩
    · show find_path graph annex s d cF hF fuel = .noPath ↔ dget st.costs d = none
      by_cases hc : (dget st.costs d).isSome = true
      · have hfp : find_path graph annex s d cF hF fuel ≠ FPOut.noPath :=
          find_path_ne_noPath_of_ok (by rw [hss, if_pos hc])
        constructor
        · intro hnp
          exact absurd hnp hfp
        · intro hnone
          rw [hnone] at hc
          exact absurd hc (by simp)
      · have hnone : dget st.costs d = none := by
          cases hd : dget st.costs d with
          | none => rfl
          | some w => rw [hd] at hc; simp at hc
        have hnp : find_path graph annex s d cF hF fuel = FPOut.noPath := by
          unfold find_path
          rw [hss, if_neg hc]
        exact ⟨fun _ => hnone, fun _ => hnp⟩
    · intro hds
      have hcs : dget st.costs d = some 0 := by
        rw [hds]
        exact inv.costS
      exact find_path_ne_noPath_of_ok (by rw [hss, if_pos (by rw [hcs]; rfl)])
  | fuelOut =>
    rw [hrun] at hout
    exact Bool.noConfusion hout
  | keyErr =>
    rw [hrun] at hout
    exact Bool.noConfusion hout

/-- Witness for the amended C3 on `{1: {2: 5}}`: destination 3 is never
reached, so NoPath is raised there, while destination 1 = start never
raises. -/
theorem c3_amended_nopath_witness :
    RowsWF exChainGraph ∧ RowsWF ([] : Dict2) ∧
    (ssspLoop none none (some 3) 10 (initState exChainGraph [] 1)).isOut = true ∧
    (find_path exChainGraph [] 1 3 none none 10 = .noPath ↔
      dget (ssspLoop none none (some 3) 10 (initState exChainGraph [] 1)).state.costs 3
        = none) ∧
    ((1 : Nat) = 1 → find_path exChainGraph [] 1 1 none none 10 ≠ .noPath) :=
  ⟨by decide, by decide, by decide,
    (c3_amended_nopath_iff exChainGraph [] 1 3 none none 10 (by decide) (by decide)
      (by decide)).1,
    (c3_amended_nopath_iff exChainGraph [] 1 1 none none 10 (by decide) (by decide)
      (by decide)).2⟩

/-! ## Claim C7 -/

theorem pchain_entry {preds : PredMap} {v : Nat} {ns : List Nat} {es cs : List Int}
    (h : PChain preds v ns es cs) : ∃ en, dget preds v = some en := by
  cases h with
  | start _ hv => exact ⟨none, hv⟩
  | step _ u e c _ _ _ hv _ => exact ⟨some (u, e, c), hv⟩

theorem pchain_decomp {preds : PredMap} {v : Nat} {ns : List Nat} {es cs : List Int}
    (h : PChain preds v ns es cs) : ∃ ns0, ns = ns0 ++ [v] := by
  cases h with
  | start _ _ => exact ⟨[], rfl⟩
  | step _ _ _ _ ns _ _ _ _ => exact ⟨ns, rfl⟩

theorem extractWalk_of_chain (preds : PredMap) {v : Nat} {ns : List Nat} {es cs : List Int}
    (hch : PChain preds v ns es cs) :
    ∀ (entry : PredEntry), dget preds v = some entry →
    ∀ (fuel : Nat), ns.length ≤ fuel + 1 →
    ∀ (aN : List Nat) (aE aC : List Int),
      extractWalk preds fuel entry aN aE aC =
        some ((aN ++ ns.dropLast.reverse).reverse, (aE ++ es.reverse).reverse,
              (aC ++ cs.reverse).reverse) := by
  induction hch with
  | start v hv =>
    intro entry hentry fuel hfuel aN aE aC
    rw [hv] at hentry
    injection hentry with h1
    subst h1
    simp [extractWalk]
  | step v u e c ns es cs hv hch ih =>
    intro entry hentry fuel hfuel aN aE aC
    rw [hv] at hentry
    injection hentry with h1
    subst h1
    cases fuel with
    | zero =>
      exfalso
      obtain ⟨ns0, hns0⟩ := pchain_decomp hch
      rw [hns0] at hfuel
      simp [List.length_append] at hfuel
    | succ f =>
      obtain ⟨entU, hentU⟩ := pchain_entry hch
      have hfuel2 : ns.length ≤ f + 1 := by
        rw [List.length_append] at hfuel
        simp at hfuel
        omega
      have hstep : extractWalk preds (f + 1) (some (u, e, c)) aN aE aC
          = extractWalk preds f entU (aN ++ [u]) (aE ++ [e]) (aC ++ [c]) := by
        conv_lhs => unfold extractWalk
        rw [hentU]
      rw [hstep, ih entU hentU f hfuel2 (aN ++ [u]) (aE ++ [e]) (aC ++ [c])]
      obtain ⟨ns0, hns0⟩ := pchain_decomp hch
      subst hns0
      simp

theorem visited_le_preds {s : Nat} {cF : Option CostFn} {st : SsspState}
    (inv : SearchInv s cF st) : st.visited.length ≤ st.predecessors.length := by
  have hsub : st.visited ⊆ st.predecessors.map Prod.fst := by
    intro u hu
    obtain ⟨en, hen⟩ := Option.isSome_iff_exists.mp (inv.visReached u hu)
    exact List.mem_map.mpr ⟨(u, en), dget_mem hen, rfl⟩
  have hle := (List.subperm_of_subset inv.visNodup hsub).length_le
  simpa using hle

theorem pathSteps_snoc (graph annex : Dict2) (cF : Option CostFn) :
    ∀ (l : List Nat) (es cs : List Int) (pe : Option Int) (a v : Nat) (e c : Int),
      pathSteps graph annex cF pe a l es cs →
      arcLookup graph annex (l.getLastD a) v = some e →
      c = computeCost cF (l.getLastD a) v e (lastEdge pe es) →
      pathSteps graph annex cF pe a (l ++ [v]) (es ++ [e]) (cs ++ [c]) := by
  intro l
  induction l with
  | nil =>
    intro es cs pe a v e c hps harc hc
    cases es with
    | cons e0 et => exact absurd hps (by simp [pathSteps])
    | nil =>
      cases cs with
      | cons c0 ct => exact absurd hps (by simp [pathSteps])
      | nil =>
        show arcLookup graph annex a v = some e ∧ c = computeCost cF a v e pe ∧
          pathSteps graph annex cF (some e) v [] [] []
        exact ⟨harc, hc, trivial⟩
  | cons b l ih =>
    intro es cs pe a v e c hps harc hc
    cases es with
    | nil => exact absurd hps (by simp [pathSteps])
    | cons e0 et =>
      cases cs with
      | nil => exact absurd hps (by simp [pathSteps])
      | cons c0 ct =>
        obtain ⟨h1, h2, h3⟩ := hps
        refine ⟨h1, h2, ?_⟩
        have hl : (b :: l).getLastD a = l.getLastD b := List.getLastD_cons a b l
        have hle : lastEdge pe (e0 :: et) = lastEdge (some e0) et := by
          cases et with
          | nil => rfl
          | cons x xs =>
            unfold lastEdge
            rw [List.getLast?_cons_cons]
            cases hgl : (x :: xs).getLast? with
            | some y => rfl
            | none => simp at hgl
        rw [hl] at harc hc
        rw [hle] at hc
        exact ih et ct (some e0) b v e c h3 harc hc

theorem chain_exists {s : Nat} {cF : Option CostFn} {st : SsspState}
    (inv : SearchInv s cF st) :
    ∀ (n : Nat) (v : Nat), idxIn st.visited v < n → (dget st.predecessors v).isSome →
      ∃ ns es cs, PChain st.predecessors v ns es cs ∧
        ns.head? = some s ∧
        pathSteps st.graph st.annex cF none s ns.tail es cs ∧
        ns.length ≤ idxIn st.visited v + 1 ∧
        lastEdge none es = prevEdgeOf st.predecessors v ∧
        ns.getLast? = some v ∧
        ns.length = es.length + 1 ∧ es.length = cs.length := by
  intro n
  induction n with
  | zero =>
    intro v h
    omega
  | succ n ih =>
    intro v hv hsome
    obtain ⟨en, hen⟩ := Option.isSome_iff_exists.mp hsome
    cases en with
    | none =>
      have hvs := inv.noneIsStart v hen
      refine ⟨[v], [], [], PChain.start v hen, by rw [hvs]; rfl, trivial,
        Nat.succ_le_succ (Nat.zero_le _), ?_, rfl, rfl, rfl⟩
      show lastEdge none [] = prevEdgeOf st.predecessors v
      unfold prevEdgeOf
      rw [hen]
      rfl
    | some tr =>
      obtain ⟨u, e, c⟩ := tr
      obtain ⟨ha1, ha2, ha3, ha4⟩ := inv.predShape v u e c hen
      have hwlt : idxIn st.visited u < idxIn st.visited v := by
        by_cases hvv : v ∈ st.visited
        · exact ha2 hvv
        · rw [idxIn_eq_length_of_not_mem hvv]
          exact idxIn_lt_length_of_mem ha1
      obtain ⟨ns, es, cs, hch, hhead, hsteps, hlen, hlast, hend, hl1, hl2⟩ :=
        ih u (by omega) (inv.visReached u ha1)
      refine ⟨ns ++ [v], es ++ [e], cs ++ [c],
        PChain.step v u e c ns es cs hen hch, ?_, ?_, ?_, ?_, ?_, ?_, ?_⟩
      · cases ns with
        | nil => exact Option.noConfusion hhead
        | cons x t => simpa using hhead
      · cases ns with
        | nil => exact Option.noConfusion hhead
        | cons x t =>
          have hx : x = s := by
            have hh : some x = some s := hhead
            injection hh
          show pathSteps st.graph st.annex cF none s (t ++ [v]) (es ++ [e]) (cs ++ [c])
          have hgl : t.getLastD s = u := by
            have h1 : (x :: t).getLast? = some (t.getLast?.getD x) :=
              (List.getLast?_cons : (x :: t).getLast? = some (t.getLast?.getD x))
            rw [hend] at h1
            injection h1 with h2
            rw [List.getLastD_eq_getLast?]
            rw [← hx]
            exact h2.symm
          have hsteps2 : pathSteps st.graph st.annex cF none s t es cs := hsteps
          refine pathSteps_snoc st.graph st.annex cF t es cs none s v e c hsteps2 ?_ ?_
          · rw [hgl]
            exact ha3
          · rw [hgl, hlast]
            exact ha4
      · rw [List.length_append]
        simp only [List.length_singleton]
        omega
      · show lastEdge none (es ++ [e]) = prevEdgeOf st.predecessors v
        unfold lastEdge prevEdgeOf
        rw [hen]
        simp [entryEdge]
      · simp
      · rw [List.length_append, List.length_append]
        simp only [List.length_singleton]
        omega
      · rw [List.length_append, List.length_append]
        simp only [List.length_singleton]
        omega

theorem extract_of_chain {preds : PredMap} {d : Nat} {ns : List Nat} {es cs : List Int}
    (hch : PChain preds d ns es cs) (fuel : Nat) (hfuel : ns.length ≤ fuel + 1) :
    extract_shortest_path_from_predecessor_list preds d fuel = some ⟨ns, es, cs, cs.sum⟩ := by
  obtain ⟨en, hen⟩ := pchain_entry hch
  unfold extract_shortest_path_from_predecessor_list
  rw [hen]
  show (match extractWalk preds fuel en [d] [] [] with
    | some (ns, es, cs) => some (PathInfo.mk ns es cs cs.sum)
    | none => none) = some (PathInfo.mk ns es cs cs.sum)
  rw [extractWalk_of_chain preds hch en hen fuel hfuel [d] [] []]
  obtain ⟨ns0, hns0⟩ := pchain_decomp hch
  subst hns0
  simp

/-- C7: whenever `find_path` succeeds, the returned `PathInfo` satisfies
`total_cost = sum(costs)`, `len(nodes) = len(edges) + 1 = len(costs) + 1`,
`nodes[0] = s`, `nodes[-1] = d`, every consecutive node pair is joined by
an existing arc whose recorded cost is exactly the computed (heuristic-free)
edge cost with the correct previous edge; and for `s = d` the result is the
degenerate `([s], [], [], 0)`. -/
theorem c7_find_path_pathinfo (graph annex : Dict2) (s d : Nat)
    (cF hF : Option CostFn) (fuel : Nat) (p : PathInfo)
    (hg : RowsWF graph) (ha : RowsWF annex)
    (h : find_path graph annex s d cF hF fuel = .ok p) :
    p.total_cost = p.costs.sum ∧
    p.nodes.length = p.edges.length + 1 ∧
    p.costs.length = p.edges.length ∧
    p.nodes.head? = some s ∧
    p.nodes.getLast? = some d ∧
    pathSteps graph annex cF none s p.nodes.tail p.edges p.costs ∧
    (s = d → p = ⟨[s], [], [], 0⟩) := by
  cases hrun : ssspLoop cF hF (some d) fuel (initState graph annex s) with
  | fuelOut =>
    exfalso
    unfold find_path single_source_shortest_paths at h
    rw [hrun] at h
    exact FPOut.noConfusion h
  | keyErr =>
    exfalso
    unfold find_path single_source_shortest_paths at h
    rw [hrun] at h
    exact FPOut.noConfusion h
  | out st =>
    have inv := ssspLoop_inv s cF hF (some d) fuel _ st
      (searchInv_init graph annex s cF hg ha) hrun
    have hframe := ssspLoop_frame cF hF (some d) fuel _ st hrun
    have hgr : st.graph = graph := hframe.1
    have han : st.annex = annex := hframe.2
    have hss : single_source_shortest_paths graph annex s (some d) cF hF fuel
        = if (dget st.costs d).isSome = true then .ok st else .noPath := by
      unfold single_source_shortest_paths
      rw [hrun]
    by_cases hc : (dget st.costs d).isSome = true
    case neg =>
      exfalso
      unfold find_path at h
      rw [hss, if_neg hc] at h
      exact FPOut.noConfusion h
    case pos =>
      have hpsome : (dget st.predecessors d).isSome := (inv.sync d).mp hc
      have hPQ : ∃ q, extract_shortest_path_from_predecessor_list st.predecessors d
          (st.predecessors.length + 1) = some q ∧ p = q := by
        unfold find_path at h
        rw [hss, if_pos hc] at h
        have h2 : (match extract_shortest_path_from_predecessor_list st.predecessors d
            (st.predecessors.length + 1) with
          | some q => FPOut.ok q
          | none => FPOut.err) = FPOut.ok p := h
        cases hE : extract_shortest_path_from_predecessor_list st.predecessors d
            (st.predecessors.length + 1) with
        | some q =>
          rw [hE] at h2
          injection h2 with h3
          exact ⟨q, rfl, h3.symm⟩
        | none =>
          rw [hE] at h2
          exact FPOut.noConfusion h2
      obtain ⟨q, hE, hpq⟩ := hPQ
      obtain ⟨ns, es, cs, hch, hhead, hsteps, hlen, hlast, hend, hl1, hl2⟩ :=
        chain_exists inv (idxIn st.visited d + 1) d (Nat.lt_succ_self _) hpsome
      have hfuelOK : ns.length ≤ (st.predecessors.length + 1) + 1 := by
        have h1 : idxIn st.visited d ≤ st.visited.length := idxIn_le_length _ _
        have h2 := visited_le_preds inv
        omega
      have hEq := extract_of_chain hch (st.predecessors.length + 1) hfuelOK
      rw [hE] at hEq
      injection hEq with hq
      subst hpq
      subst hq
      refine ⟨rfl, by simpa using hl1, by simpa using hl2.symm, hhead, hend, ?_, ?_⟩
      · show pathSteps graph annex cF none s ns.tail es cs
        rw [← hgr, ← han]
        exact hsteps
      · intro hsd
        have hpd : dget st.predecessors d = some none := by
          rw [← hsd]
          exact inv.predS
        cases hch with
        | start _ _ =>
          show PathInfo.mk [d] [] [] (([] : List Int).sum) = PathInfo.mk [s] [] [] 0
          rw [hsd]
          rfl
        | step _ u e c ns' es' cs' hv _ =>
          rw [hpd] at hv
          injection hv with hv1
          exact Option.noConfusion hv1

/-- Witness for C7 on the spec's concrete scenario: `find_path(1, 4)` on
`exSpecGraph` yields nodes `[1, 2, 4]`, edges `[1, 2]`, costs `[1, 2]`,
total cost 3. -/
theorem c7_find_path_witness :
    RowsWF exSpecGraph ∧ RowsWF ([] : Dict2) ∧
    find_path exSpecGraph [] 1 4 none none 100 = .ok ⟨[1, 2, 4], [1, 2], [1, 2], 3⟩ ∧
    (PathInfo.mk [1, 2, 4] [1, 2] [1, 2] 3).total_cost
      = (PathInfo.mk [1, 2, 4] [1, 2] [1, 2] 3).costs.sum ∧
    (PathInfo.mk [1, 2, 4] [1, 2] [1, 2] 3).nodes.head? = some 1 ∧
    (PathInfo.mk [1, 2, 4] [1, 2] [1, 2] 3).nodes.getLast? = some 4 :=
  ⟨by decide, by decide, by decide,
    (c7_find_path_pathinfo exSpecGraph [] 1 4 none none 100 ⟨[1, 2, 4], [1, 2], [1, 2], 3⟩
      (by decide) (by decide) (by decide)).1,
    (c7_find_path_pathinfo exSpecGraph [] 1 4 none none 100 ⟨[1, 2, 4], [1, 2], [1, 2], 3⟩
      (by decide) (by decide) (by decide)).2.2.2.1,
    (c7_find_path_pathinfo exSpecGraph [] 1 4 none none 100 ⟨[1, 2, 4], [1, 2], [1, 2], 3⟩
      (by decide) (by decide) (by decide)).2.2.2.2.1⟩

/-- C4 amended: on a graph satisfying the dual-index invariant,
`remove_edge(u, v)` (with `v` holding an adjacency entry, so no `KeyError`)
removes the forward arc with its incoming mirror and ALSO removes the
reverse arc `v→u` with its mirror whenever it exists — regardless of the
`undirected` flag; every other arc is left unchanged. -/
theorem c4_amended_remove_edge (g : Graph) (u v : Nat) (e : Int)
    (hinv : DualIndexInv g)
    (hfwd : dget2 g.data u v = some e)
    (hv : (dget g.data v).isSome)
    (hne : u ≠ v) :
    ∃ g', remove_edge g u v = .ok g' ∧
      dget2 g'.data u v = none ∧ dget2 g'.incoming v u = none ∧
      dget2 g'.data v u = none ∧ dget2 g'.incoming u v = none ∧
      (∀ x y, ¬(x = u ∧ y = v) → ¬(x = v ∧ y = u) →
        dget2 g'.data x y = dget2 g.data x y) := by
  have hvu : v ≠ u := fun hh => hne hh.symm
  obtain ⟨rowU, hu, huv⟩ : ∃ rowU, dget g.data u = some rowU ∧ dget rowU v = some e := by
    unfold dget2 at hfwd
    cases hg1 : dget g.data u with
    | none => rw [hg1] at hfwd; simp at hfwd
    | some rowU =>
      rw [hg1] at hfwd
      simp only [Option.some_bind] at hfwd
      exact ⟨rowU, rfl, hfwd⟩
  have hmir : dget2 g.incoming v u = some e := hinv.1 u v e hfwd
  obtain ⟨rowIV, hiv, hivu⟩ : ∃ rowIV, dget g.incoming v = some rowIV ∧ dget rowIV u = some e := by
    unfold dget2 at hmir
    cases hg1 : dget g.incoming v with
    | none => rw [hg1] at hmir; simp at hmir
    | some rowIV =>
      rw [hg1] at hmir
      simp only [Option.some_bind] at hmir
      exact ⟨rowIV, rfl, hmir⟩
  obtain ⟨rowV, hgv⟩ := Option.isSome_iff_exists.mp hv
  have hdata1v : dget (dset g.data u (ddel rowU v)) v = some rowV := by
    rw [dget_dset_ne _ _ _ _ hvu]
    exact hgv
  have hm2 : dget2 (if (ddel rowIV u).isEmpty
      then ddel (dset (dset g.incoming v rowIV) v (ddel rowIV u)) v
      else dset (dset g.incoming v rowIV) v (ddel rowIV u)) v u = none := by
    split
    · unfold dget2
      rw [dget_ddel, if_pos rfl]
      rfl
    · unfold dget2
      rw [dget_dset_self]
      simp only [Option.some_bind]
      rw [dget_ddel, if_pos rfl]
  have hincRowU : ∀ x : Nat, x ≠ v → dget (if (ddel rowIV u).isEmpty
      then ddel (dset (dset g.incoming v rowIV) v (ddel rowIV u)) v
      else dset (dset g.incoming v rowIV) v (ddel rowIV u)) x = dget g.incoming x := by
    intro x hx
    split
    · rw [dget_ddel, if_neg hx, dget_dset_ne _ _ _ _ hx, dget_dset_ne _ _ _ _ hx]
    · rw [dget_dset_ne _ _ _ _ hx, dget_dset_ne _ _ _ _ hx]
  cases hru : dget rowV u with
  | none =>
    have hiuv : dget2 g.incoming u v = none := by
      cases hx : dget2 g.incoming u v with
      | none => rfl
      | some x =>
        exfalso
        have h2 := hinv.2 u v x hx
        unfold dget2 at h2
        rw [hgv] at h2
        simp only [Option.some_bind] at h2
        rw [hru] at h2
        exact Option.noConfusion h2
    have hres : remove_edge g u v = .ok
        { g with data := dset g.data u (ddel rowU v),
                 incoming := if (ddel rowIV u).isEmpty
                   then ddel (dset (dset g.incoming v rowIV) v (ddel rowIV u)) v
                   else dset (dset g.incoming v rowIV) v (ddel rowIV u) } := by
      unfold remove_edge
      simp only [hu, huv, hiv, Option.getD_some, hivu, hdata1v, hru]
    refine ⟨_, hres, ?_, hm2, ?_, ?_, ?_⟩
    · show dget2 (dset g.data u (ddel rowU v)) u v = none
      unfold dget2
      rw [dget_dset_self]
      simp only [Option.some_bind]
      rw [dget_ddel, if_pos rfl]
    · show dget2 (dset g.data u (ddel rowU v)) v u = none
      unfold dget2
      rw [hdata1v]
      simp only [Option.some_bind]
      exact hru
    · show dget2 (if (ddel rowIV u).isEmpty
          then ddel (dset (dset g.incoming v rowIV) v (ddel rowIV u)) v
          else dset (dset g.incoming v rowIV) v (ddel rowIV u)) u v = none
      unfold dget2
      rw [hincRowU u hne]
      exact hiuv
    · intro x y hx1 _
      show dget2 (dset g.data u (ddel rowU v)) x y = dget2 g.data x y
      by_cases hxu : x = u
      · subst hxu
        unfold dget2
        rw [dget_dset_self, hu]
        simp only [Option.some_bind]
        rw [dget_ddel, if_neg (fun hh : y = v => hx1 ⟨rfl, hh⟩)]
      · unfold dget2
        rw [dget_dset_ne _ _ _ _ hxu]
  | some e2 =>
    have hrev : dget2 g.data v u = some e2 := by
      unfold dget2
      rw [hgv]
      simp only [Option.some_bind]
      exact hru
    have hincuv : dget2 g.incoming u v = some e2 := hinv.1 v u e2 hrev
    obtain ⟨rowIU, hiu, hiuv2⟩ : ∃ rowIU, dget g.incoming u = some rowIU ∧
        dget rowIU v = some e2 := by
      unfold dget2 at hincuv
      cases hg1 : dget g.incoming u with
      | none => rw [hg1] at hincuv; simp at hincuv
      | some rowIU =>
        rw [hg1] at hincuv
        simp only [Option.some_bind] at hincuv
        exact ⟨rowIU, rfl, hincuv⟩
    have hincu : dget (if (ddel rowIV u).isEmpty
        then ddel (dset (dset g.incoming v rowIV) v (ddel rowIV u)) v
        else dset (dset g.incoming v rowIV) v (ddel rowIV u)) u = some rowIU := by
      rw [hincRowU u hne]
      exact hiu
    have hres : remove_edge g u v = .ok
        { g with data := dset (dset g.data u (ddel rowU v)) v (ddel rowV u),
                 incoming :=
                   if (ddel rowIU v).isEmpty
                   then ddel (dset (dset (if (ddel rowIV u).isEmpty
                     then ddel (dset (dset g.incoming v rowIV) v (ddel rowIV u)) v
                     else dset (dset g.incoming v rowIV) v (ddel rowIV u)) u rowIU) u
                       (ddel rowIU v)) u
                   else dset (dset (if (ddel rowIV u).isEmpty
                     then ddel (dset (dset g.incoming v rowIV) v (ddel rowIV u)) v
                     else dset (dset g.incoming v rowIV) v (ddel rowIV u)) u rowIU) u
                       (ddel rowIU v) } := by
      unfold remove_edge
      simp only [hu, huv, hiv, Option.getD_some, hivu, hdata1v, hru, hincu, hiuv2]
    refine ⟨_, hres, ?_, ?_, ?_, ?_, ?_⟩
    · show dget2 (dset (dset g.data u (ddel rowU v)) v (ddel rowV u)) u v = none
      unfold dget2
      rw [dget_dset_ne _ _ _ _ hne, dget_dset_self]
      simp only [Option.some_bind]
      rw [dget_ddel, if_pos rfl]
    · show dget2 _ v u = none
      unfold dget2
      have hgetv : dget (if (ddel rowIU v).isEmpty
          then ddel (dset (dset (if (ddel rowIV u).isEmpty
            then ddel (dset (dset g.incoming v rowIV) v (ddel rowIV u)) v
            else dset (dset g.incoming v rowIV) v (ddel rowIV u)) u rowIU) u
              (ddel rowIU v)) u
          else dset (dset (if (ddel rowIV u).isEmpty
            then ddel (dset (dset g.incoming v rowIV) v (ddel rowIV u)) v
            else dset (dset g.incoming v rowIV) v (ddel rowIV u)) u rowIU) u
              (ddel rowIU v)) v
          = dget (if (ddel rowIV u).isEmpty
            then ddel (dset (dset g.incoming v rowIV) v (ddel rowIV u)) v
            else dset (dset g.incoming v rowIV) v (ddel rowIV u)) v := by
        split
        · rw [dget_ddel, if_neg hvu, dget_dset_ne _ _ _ _ hvu, dget_dset_ne _ _ _ _ hvu]
        · rw [dget_dset_ne _ _ _ _ hvu, dget_dset_ne _ _ _ _ hvu]
      rw [hgetv]
      unfold dget2 at hm2
      exact hm2
    · show dget2 (dset (dset g.data u (ddel rowU v)) v (ddel rowV u)) v u = none
      unfold dget2
      rw [dget_dset_self]
      simp only [Option.some_bind]
      rw [dget_ddel, if_pos rfl]
    · show dget2 _ u v = none
      unfold dget2
      split
      · rw [dget_ddel, if_pos rfl]
        rfl
      · rw [dget_dset_self]
        simp only [Option.some_bind]
        rw [dget_ddel, if_pos rfl]
    · intro x y hx1 hx2
      show dget2 (dset (dset g.data u (ddel rowU v)) v (ddel rowV u)) x y = dget2 g.data x y
      by_cases hxv : x = v
      · subst hxv
        unfold dget2
        rw [dget_dset_self, hgv]
        simp only [Option.some_bind]
        rw [dget_ddel, if_neg (fun hh : y = u => hx2 ⟨rfl, hh⟩)]
      · by_cases hxu : x = u
        · subst hxu
          unfold dget2
          rw [dget_dset_ne _ _ _ _ hxv, dget_dset_self, hu]
          simp only [Option.some_bind]
          rw [dget_ddel, if_neg (fun hh : y = v => hx1 ⟨rfl, hh⟩)]
        · unfold dget2
          rw [dget_dset_ne _ _ _ _ hxv, dget_dset_ne _ _ _ _ hxu]

/-- Witness for the amended C4 on the directed graph with arcs `1→2` and
`2→1`: `remove_edge(1, 2)` succeeds and both arcs (with mirrors) are gone,
while nothing else changes. -/
theorem c4_amended_remove_edge_witness :
    DualIndexInv exG4 ∧ dget2 exG4.data 1 2 = some 10 ∧
    (dget exG4.data 2).isSome = true ∧ (1 : Nat) ≠ 2 ∧
    (∃ g', remove_edge exG4 1 2 = .ok g' ∧
      dget2 g'.data 1 2 = none ∧ dget2 g'.incoming 2 1 = none ∧
      dget2 g'.data 2 1 = none ∧ dget2 g'.incoming 1 2 = none ∧
      (∀ x y, ¬(x = 1 ∧ y = 2) → ¬(x = 2 ∧ y = 1) →
        dget2 g'.data x y = dget2 exG4.data x y)) :=
  ⟨dualIndexCheck_sound (by decide), by decide, by decide, by decide,
    c4_amended_remove_edge exG4 1 2 10 (dualIndexCheck_sound (by decide))
      (by decide) (by decide) (by decide)⟩

theorem add_edge_undirected (s : Graph) (u v : Nat) (e : Int) :
    (add_edge s u v e).undirected = s.undirected := by
  obtain ⟨d, i, b⟩ := s
  cases b <;> rfl

theorem add_edge_data_directed (s : Graph) (h : s.undirected = false) (u v : Nat) (e : Int) :
    (add_edge s u v e).data =
      match dget s.data u with
      | some neighbors => dset s.data u (dset neighbors v e)
      | none => dset s.data u [(v, e)] := by
  obtain ⟨d, i, b⟩ := s
  have hb : b = false := h
  subst hb
  rfl

theorem add_edge_data_get_ne (s : Graph) (h : s.undirected = false) (u v : Nat) (e : Int)
    (x : Nat) (hx : x ≠ u) : dget (add_edge s u v e).data x = dget s.data x := by
  rw [add_edge_data_directed s h]
  cases hd : dget s.data u with
  | none => exact dget_dset_ne _ _ _ _ hx
  | some nb => exact dget_dset_ne _ _ _ _ hx

theorem add_edge_data_get_self_some (s : Graph) (h : s.undirected = false) (u v : Nat)
    (e : Int) (nb : Row) (hnb : dget s.data u = some nb) :
    dget (add_edge s u v e).data u = some (dset nb v e) := by
  rw [add_edge_data_directed s h, hnb]
  exact dget_dset_self _ _ _

theorem add_edge_data_get_self_none (s : Graph) (h : s.undirected = false) (u v : Nat)
    (e : Int) (hnb : dget s.data u = none) :
    dget (add_edge s u v e).data u = some [(v, e)] := by
  rw [add_edge_data_directed s h, hnb]
  exact dget_dset_self _ _ _

theorem addRow_undirected (u : Nat) (row : Row) : ∀ sub : Graph,
    (addRow sub u row).undirected = sub.undirected := by
  induction row with
  | nil => intro sub; rfl
  | cons ve t ih =>
    intro sub
    show (addRow (add_edge sub u ve.1 ve.2) u t).undirected = _
    rw [ih, add_edge_undirected]

theorem addRow_data_ne (u : Nat) (row : Row) : ∀ sub : Graph, sub.undirected = false →
    ∀ x, x ≠ u → dget (addRow sub u row).data x = dget sub.data x := by
  induction row with
  | nil => intro sub _ x _; rfl
  | cons ve t ih =>
    intro sub h x hx
    show dget (addRow (add_edge sub u ve.1 ve.2) u t).data x = _
    rw [ih _ (by rw [add_edge_undirected]; exact h) x hx,
      add_edge_data_get_ne sub h u ve.1 ve.2 x hx]

theorem addRow_data_self (u : Nat) (row : Row) : ∀ (sub : Graph) (cur : Row),
    sub.undirected = false → dget sub.data u = some cur →
    dget (addRow sub u row).data u =
      some (row.foldl (fun r q => dset r q.1 q.2) cur) := by
  induction row with
  | nil => intro sub cur _ hc; exact hc
  | cons ve t ih =>
    intro sub cur h hc
    show dget (addRow (add_edge sub u ve.1 ve.2) u t).data u = _
    exact ih _ _ (by rw [add_edge_undirected]; exact h)
      (add_edge_data_get_self_some sub h u ve.1 ve.2 cur hc)

theorem addRow_data_none_nil (u : Nat) (sub : Graph) (hu : dget sub.data u = none) :
    dget (addRow sub u []).data u = none := hu

theorem addRow_data_none_cons (u : Nat) (ve : Nat × Int) (t : Row) (sub : Graph)
    (h : sub.undirected = false) (hu : dget sub.data u = none) :
    dget (addRow sub u (ve :: t)).data u =
      some (t.foldl (fun r q => dset r q.1 q.2) [(ve.1, ve.2)]) := by
  show dget (addRow (add_edge sub u ve.1 ve.2) u t).data u = _
  exact addRow_data_self u t _ _ (by rw [add_edge_undirected]; exact h)
    (add_edge_data_get_self_none sub h u ve.1 ve.2 hu)

theorem dget_append {α : Type} (a b : List (Nat × α)) (k : Nat) :
    dget (a ++ b) k = match dget a k with | some v => some v | none => dget b k := by
  induction a with
  | nil => rfl
  | cons p t ih =>
    by_cases h : p.1 = k
    · simp only [List.cons_append, dget, if_pos h]
    · simp only [List.cons_append, dget, if_neg h]
      exact ih

theorem dset_append_fresh {α : Type} (d : List (Nat × α)) (k : Nat) (v : α)
    (h : dget d k = none) : dset d k v = d ++ [(k, v)] := by
  induction d with
  | nil => rfl
  | cons p t ih =>
    unfold dget at h
    by_cases hp : p.1 = k
    · rw [if_pos hp] at h
      exact Option.noConfusion h
    · rw [if_neg hp] at h
      simp only [dset, if_neg hp, List.cons_append]
      rw [ih h]

theorem foldl_dset_fresh {α : Type} (row : List (Nat × α)) :
    ∀ acc : List (Nat × α), (∀ q ∈ row, dget acc q.1 = none) →
    (row.map Prod.fst).Nodup →
    row.foldl (fun r q => dset r q.1 q.2) acc = acc ++ row := by
  induction row with
  | nil => intro acc _ _; simp
  | cons p t ih =>
    intro acc hfresh hnd
    have hp : dget acc p.1 = none := hfresh p (List.mem_cons_self p t)
    have hnd' : (t.map Prod.fst).Nodup := (List.nodup_cons.mp (by
      rw [List.map_cons] at hnd; exact hnd)).2
    have hpnot : p.1 ∉ t.map Prod.fst := (List.nodup_cons.mp (by
      rw [List.map_cons] at hnd; exact hnd)).1
    have hcond : ∀ q ∈ t, dget (acc ++ [(p.1, p.2)]) q.1 = none := by
      intro q hq
      have hne : ¬ (p.1 = q.1) := by
        intro hh
        apply hpnot
        rw [hh]
        exact List.mem_map_of_mem Prod.fst hq
      rw [dget_append, hfresh q (List.mem_cons_of_mem p hq)]
      simp [dget, hne]
    show t.foldl (fun r q => dset r q.1 q.2) (dset acc p.1 p.2) = _
    rw [dset_append_fresh acc p.1 p.2 hp, ih (acc ++ [(p.1, p.2)]) hcond hnd',
      List.append_assoc]
    simp

theorem subgraph_loop1_char (g : Graph) (nodes : List Nat) :
    ∀ sub : Graph, sub.undirected = false → nodes.Nodup →
    (∀ u ∈ nodes, (dget g.data u).isSome) →
    (∀ u ∈ nodes, dget sub.data u = none) →
    RowsWF g.data →
    ∃ sub', subgraph_loop1 g nodes sub = .ok sub' ∧ sub'.undirected = false ∧
      (∀ x ∈ nodes, dget sub'.data x =
        if ((dget g.data x).getD []).isEmpty then none else dget g.data x) ∧
      (∀ x, x ∉ nodes → dget sub'.data x = dget sub.data x) := by
  induction nodes with
  | nil =>
    intro sub hdir _ _ _ _
    exact ⟨sub, rfl, hdir, fun x hx => absurd hx (List.not_mem_nil x), fun x _ => rfl⟩
  | cons u rest ih =>
    intro sub hdir hnd hmem hfresh hwf
    obtain ⟨row, hrow⟩ := Option.isSome_iff_exists.mp (hmem u (List.mem_cons_self u rest))
    have hstep : subgraph_loop1 g (u :: rest) sub = subgraph_loop1 g rest (addRow sub u row) := by
      conv_lhs => unfold subgraph_loop1
      rw [hrow]
    have hdir1 : (addRow sub u row).undirected = false := by
      rw [addRow_undirected]
      exact hdir
    have hnd' := (List.nodup_cons.mp hnd).2
    have hunotin := (List.nodup_cons.mp hnd).1
    have hfresh1 : ∀ w ∈ rest, dget (addRow sub u row).data w = none := by
      intro w hw
      rw [addRow_data_ne u row sub hdir w (fun hh => hunotin (hh ▸ hw))]
      exact hfresh w (List.mem_cons_of_mem u hw)
    obtain ⟨sub', hrun, hdir', hin, hout⟩ :=
      ih (addRow sub u row) hdir1 hnd' (fun w hw => hmem w (List.mem_cons_of_mem u hw))
        hfresh1 hwf
    refine ⟨sub', by rw [hstep]; exact hrun, hdir', ?_, ?_⟩
    · intro x hx
      rcases List.mem_cons.mp hx with hxu | hxr
      · subst hxu
        rw [hout x hunotin, hrow]
        have hfru : dget sub.data x = none := hfresh x (List.mem_cons_self x rest)
        have hrnd : (row.map Prod.fst).Nodup := hwf (x, row) (dget_mem hrow)
        cases row with
        | nil =>
          rw [addRow_data_none_nil x sub hfru]
          rfl
        | cons ve t =>
          rw [addRow_data_none_cons x ve t sub hdir hfru]
          rw [List.map_cons] at hrnd
          have hhd := (List.nodup_cons.mp hrnd).1
          have htl := (List.nodup_cons.mp hrnd).2
          have hcond : ∀ q ∈ t, dget [(ve.1, ve.2)] q.1 = none := by
            intro q hq
            have hne : ¬ (ve.1 = q.1) := by
              intro hh
              apply hhd
              rw [hh]
              exact List.mem_map_of_mem Prod.fst hq
            simp [dget, hne]
          rw [foldl_dset_fresh t [(ve.1, ve.2)] hcond htl]
          rfl
      · exact hin x hxr
    · intro x hx
      have hxu : x ≠ u := fun hh => hx (by rw [hh]; exact List.mem_cons_self u rest)
      have hxr : x ∉ rest := fun hh => hx (List.mem_cons_of_mem u hh)
      rw [hout x hxr, addRow_data_ne u row sub hdir x hxu]

theorem dget_delNodes (nodes : List Nat) : ∀ (row : Row) (y : Nat),
    dget (delNodes row nodes) y = if y ∈ nodes then none else dget row y := by
  induction nodes with
  | nil =>
    intro row y
    simp [delNodes]
  | cons n rest ih =>
    intro row y
    have hstep : delNodes row (n :: rest) =
        delNodes (if dhas row n then ddel row n else row) rest := rfl
    rw [hstep, ih]
    have h1 : dget (if dhas row n then ddel row n else row) y =
        if y = n then none else dget row y := by
      by_cases hd : dhas row n
      · rw [if_pos hd, dget_ddel]
      · rw [if_neg hd]
        by_cases hyn : y = n
        · subst hyn
          rw [if_pos rfl]
          unfold dhas at hd
          cases hq : dget row y with
          | none => rfl
          | some v =>
            rw [hq] at hd
            exact absurd rfl hd
        · rw [if_neg hyn]
    rw [h1]
    by_cases h2 : y ∈ rest
    · rw [if_pos h2, if_pos (List.mem_cons_of_mem n h2)]
    · rw [if_neg h2]
      by_cases h3 : y = n
      · rw [if_pos h3, if_pos (by rw [h3]; exact List.mem_cons_self n rest)]
      · rw [if_neg h3, if_neg (fun hh => (List.mem_cons.mp hh).elim h3 h2)]

theorem subgraph_loop2_char (nodes : List Nat) (todo : List Nat) : ∀ sub : Graph,
    todo.Nodup →
    (∀ u ∈ todo, (dget sub.data u).isSome) →
    ∃ sub2, subgraph_loop2 nodes todo sub = .ok sub2 ∧
      sub2.undirected = sub.undirected ∧
      (∀ x ∈ todo, dget sub2.data x =
        (dget sub.data x).map (fun row => delNodes row nodes)) ∧
      (∀ x, x ∉ todo → dget sub2.data x = dget sub.data x) := by
  induction todo with
  | nil =>
    intro sub _ _
    exact ⟨sub, rfl, rfl, fun x hx => absurd hx (List.not_mem_nil x), fun x _ => rfl⟩
  | cons u rest ih =>
    intro sub hnd hmem
    obtain ⟨row, hrow⟩ := Option.isSome_iff_exists.mp (hmem u (List.mem_cons_self u rest))
    have hstep : subgraph_loop2 nodes (u :: rest) sub =
        subgraph_loop2 nodes rest { sub with data := dset sub.data u (delNodes row nodes) } := by
      conv_lhs => unfold subgraph_loop2
      rw [hrow]
    have hnd' := (List.nodup_cons.mp hnd).2
    have hunotin := (List.nodup_cons.mp hnd).1
    have hmem' : ∀ w ∈ rest,
        (dget ({ sub with data := dset sub.data u (delNodes row nodes) } : Graph).data w).isSome := by
      intro w hw
      show (dget (dset sub.data u (delNodes row nodes)) w).isSome
      rw [dget_dset_ne _ _ _ _ (fun hh => hunotin (by rw [← hh]; exact hw))]
      exact hmem w (List.mem_cons_of_mem u hw)
    obtain ⟨sub2, hrun, hdir, hin, hout⟩ :=
      ih { sub with data := dset sub.data u (delNodes row nodes) } hnd' hmem'
    refine ⟨sub2, by rw [hstep]; exact hrun, by exact hdir.trans rfl, ?_, ?_⟩
    · intro x hx
      rcases List.mem_cons.mp hx with hxu | hxr
      · subst hxu
        rw [hout x hunotin]
        show dget (dset sub.data x (delNodes row nodes)) x = _
        rw [dget_dset_self, hrow]
        rfl
      · rw [hin x hxr]
        show (dget (dset sub.data u (delNodes row nodes)) x).map _ = _
        rw [dget_dset_ne _ _ _ _ (fun hh => hunotin (by rw [← hh]; exact hxr))]
    · intro x hx
      have hxu : x ≠ u := fun hh => hx (by rw [hh]; exact List.mem_cons_self u rest)
      have hxr : x ∉ rest := fun hh => hx (List.mem_cons_of_mem u hh)
      rw [hout x hxr]
      show dget (dset sub.data u (delNodes row nodes)) x = _
      rw [dget_dset_ne _ _ _ _ hxu]

/-- C5 amended: `subgraph(ns)` builds a fresh DIRECTED graph that keeps, for
each selected node, its complete outgoing row (targets need not be
selected); with `disconnect` set, exactly the arcs whose target is also
selected are additionally removed from the forward adjacency. -/
theorem c5_amended_subgraph (g : Graph) (ns : List Nat)
    (hnd : ns.Nodup) (hwf : RowsWF g.data)
    (hmem : ∀ u ∈ ns, (dget g.data u).isSome) :
    (∃ sub, subgraph g ns false = .ok sub ∧ sub.undirected = false ∧
      ∀ u v, dget2 sub.data u v = if u ∈ ns then dget2 g.data u v else none) ∧
    ((∀ u ∈ ns, ((dget g.data u).getD []).isEmpty = false) →
      ∃ sub, subgraph g ns true = .ok sub ∧ sub.undirected = false ∧
        ∀ u v, dget2 sub.data u v =
          if u ∈ ns ∧ v ∉ ns then dget2 g.data u v else none) := by
  have hfresh : ∀ u ∈ ns, dget (Graph.mk [] [] false).data u = none := fun u _ => rfl
  obtain ⟨sub, hrun, hdir, hin, hout⟩ :=
    subgraph_loop1_char g ns ⟨[], [], false⟩ rfl hnd hmem hfresh hwf
  constructor
  · refine ⟨sub, ?_, hdir, ?_⟩
    · show subgraph g ns false = .ok sub
      unfold subgraph
      rw [hrun]
      rfl
    · intro u v
      by_cases hu : u ∈ ns
      · rw [if_pos hu]
        obtain ⟨row, hrow⟩ := Option.isSome_iff_exists.mp (hmem u hu)
        unfold dget2
        rw [hin u hu, hrow]
        cases row with
        | nil => rfl
        | cons p t => rfl
      · rw [if_neg hu]
        unfold dget2
        rw [hout u hu]
        rfl
  · intro hne
    have hmem2 : ∀ u ∈ ns, (dget sub.data u).isSome := by
      intro u hu
      rw [hin u hu]
      obtain ⟨row, hrow⟩ := Option.isSome_iff_exists.mp (hmem u hu)
      have hr := hne u hu
      simp only [hrow, Option.getD_some] at hr
      simp [hrow, hr]
    obtain ⟨sub2, hrun2, hdir2, hin2, hout2⟩ := subgraph_loop2_char ns ns sub hnd hmem2
    refine ⟨sub2, ?_, by rw [hdir2]; exact hdir, ?_⟩
    · show subgraph g ns true = .ok sub2
      unfold subgraph
      rw [hrun]
      show subgraph_loop2 ns ns sub = .ok sub2
      exact hrun2
    · intro u v
      by_cases hu : u ∈ ns
      · obtain ⟨row, hrow⟩ := Option.isSome_iff_exists.mp (hmem u hu)
        have hrowne : row.isEmpty = false := by
          have hr := hne u hu
          rw [hrow] at hr
          simpa using hr
        have hsubu : dget sub.data u = some row := by
          rw [hin u hu]
          simp [hrow, hrowne]
        unfold dget2
        rw [hin2 u hu, hsubu]
        show dget (delNodes row ns) v = _
        rw [dget_delNodes]
        by_cases hv : v ∈ ns
        · rw [if_pos hv, if_neg (fun hh : u ∈ ns ∧ v ∉ ns => hh.2 hv)]
        · rw [if_neg hv, if_pos ⟨hu, hv⟩]
          rw [hrow]
          rfl
      · rw [if_neg (fun hh : u ∈ ns ∧ v ∉ ns => hu hh.1)]
        unfold dget2
        rw [hout2 u hu, hout u hu]
        rfl

/-- Witness for the amended C5 on the directed graph with arcs `1→2` and
`2→1`, selecting `ns = [1, 2]`: without `disconnect` both arcs survive;
with `disconnect` both are stripped (both endpoints are selected). -/
theorem c5_amended_subgraph_witness :
    ([1, 2] : List Nat).Nodup ∧ RowsWF exG4.data ∧
    (∀ u ∈ ([1, 2] : List Nat), (dget exG4.data u).isSome) ∧
    ((∃ sub, subgraph exG4 [1, 2] false = .ok sub ∧ sub.undirected = false ∧
       ∀ u v, dget2 sub.data u v =
         if u ∈ ([1, 2] : List Nat) then dget2 exG4.data u v else none) ∧
     ((∀ u ∈ ([1, 2] : List Nat), ((dget exG4.data u).getD []).isEmpty = false) →
       ∃ sub, subgraph exG4 [1, 2] true = .ok sub ∧ sub.undirected = false ∧
         ∀ u v, dget2 sub.data u v =
           if u ∈ ([1, 2] : List Nat) ∧ v ∉ ([1, 2] : List Nat)
           then dget2 exG4.data u v else none)) :=
  ⟨by decide, by decide, by decide,
    c5_amended_subgraph exG4 [1, 2] (by decide) (by decide) (by decide)⟩
